import Mathlib

/-!
Verification of the WebLoom crawler core (`src/app.py`) against its
natural-language specification.

Strings are modelled as lists of characters (`Chars`).  The program relies on
Python's `urllib.parse` (CPython 3.11, `urllib/parse.py`) for URL handling, so
the relevant subset of that library — `urlsplit`, `urlparse`, `urlunsplit`,
`urlunparse`, `urljoin` — is embedded here faithfully, including the removal of
unsafe bytes, the scheme/netloc/fragment/query/params splitting order, the
bracket (`ValueError("Invalid IPv6 URL")`) check, and the `_checknetloc` NFKC
check (the `unicodedata`-based part of which is opaque and supplied as a
parameter `nfkcOk`; it is never consulted for ASCII netlocs).

Character-level caveat: Python's `str.lower` / regex `\w` cover all of
Unicode; the embedding uses their ASCII restriction (`Char.toLower`,
`Char.isAlpha`, ...), which coincides with Python on the ASCII inputs used by
every concrete witness below.
-/

abbrev Chars := List Char

/-- Python `str.lower()` restricted to ASCII case mapping. -/
def pyLower (s : Chars) : Chars := s.map Char.toLower

/-- The bytes `\t`, `\r`, `\n` removed from URLs by `urlsplit` (WHATWG rule). -/
def isUnsafeByte (c : Char) : Bool := c == '\t' || c == '\r' || c == '\n'

/-- Characters allowed in a URL scheme (`scheme_chars` in `urllib/parse.py`). -/
def isSchemeChar (c : Char) : Bool :=
  c.isAlpha || c.isDigit || c == '+' || c == '-' || c == '.'

/-- Python `s.split(sep, 1)` when `sep` occurs in `s`: the parts before and
after the first occurrence; `none` when `sep` does not occur. -/
def splitOnce (sep : Char) : Chars → Option (Chars × Chars)
  | [] => none
  | c :: cs =>
      if c = sep then some ([], cs)
      else
        match splitOnce sep cs with
        | some (a, b) => some (c :: a, b)
        | none => none

/-- Split at the last occurrence of `'/'`: `l = a ++ '/' :: b` with no `'/'`
in `b`; `none` when `'/'` does not occur (used to model `str.rfind('/')`). -/
def splitLastSlash : Chars → Option (Chars × Chars)
  | [] => none
  | c :: cs =>
      match splitLastSlash cs with
      | some (a, b) => some (c :: a, b)
      | none => if c = '/' then some ([], cs) else none

/-- Delimiters ending the netloc portion of a URL (`_splitnetloc`). -/
def netlocDelim (c : Char) : Bool := c == '/' || c == '?' || c == '#'

/-- Result of `urlsplit`: scheme, netloc, path, query, fragment. -/
structure SplitResult where
  scheme : Chars
  netloc : Chars
  path : Chars
  query : Chars
  fragment : Chars
deriving DecidableEq, Repr

/-- Result of `urlparse`: `urlsplit` plus the params component. -/
structure ParseResult where
  scheme : Chars
  netloc : Chars
  path : Chars
  params : Chars
  query : Chars
  fragment : Chars
deriving DecidableEq, Repr

/-- Scheme detection in `urlsplit`: text before the first `':'` counts as the
scheme when nonempty, starting with an ASCII letter, and made of scheme
characters; it is lowercased.  Otherwise the default scheme is kept and the
url is left whole. -/
def splitScheme (defaultScheme url : Chars) : Chars × Chars :=
  match splitOnce ':' url with
  | some (pre, rest) =>
      match pre with
      | [] => (defaultScheme, url)
      | c :: _ =>
          if c.isAlpha && pre.all isSchemeChar then (pyLower pre, rest)
          else (defaultScheme, url)
  | none => (defaultScheme, url)

/-- The opaque pieces of CPython's URL checks: `nfkcOk` models the
`unicodedata.normalize`-based part of `_checknetloc` (never consulted for
ASCII netlocs); `bracketOk` models `_check_bracketed_host` (the
`ipaddress`/regex validation of a host in square brackets). -/
structure PyOracles where
  nfkcOk : Chars → Bool
  bracketOk : Chars → Bool

/-- Leading C0-control-or-space stripping applied by `urlsplit`. -/
def lstripControl (l : Chars) : Chars := l.dropWhile (fun c => c.toNat ≤ 32)

/-- Python `_checknetloc` succeeds: trivially for empty or all-ASCII netlocs;
otherwise the opaque NFKC-normalization check `nfkcOk` decides. -/
def checknetlocOk (po : PyOracles) (netloc : Chars) : Bool :=
  netloc.isEmpty || netloc.all (fun c => decide (c.toNat ≤ 127)) || po.nfkcOk netloc

/-- The host between the first `'['` and the following `']'` of a netloc
(Python `netloc.partition('[')[2].partition(']')[0]`). -/
def bracketedHost (netloc : Chars) : Chars :=
  match splitOnce '[' netloc with
  | some (_, after) =>
      match splitOnce ']' after with
      | some (host, _) => host
      | none => after
  | none => []

/-- The working URL string: leading C0-control-or-space stripped, unsafe
bytes removed. -/
def cleanUrl (url0 : Chars) : Chars :=
  (lstripControl url0).filter (fun c => !isUnsafeByte c)

/-- The default-scheme cleanup (`scheme.strip(...)` plus unsafe-byte
removal). -/
def cleanScheme (defaultScheme : Chars) : Chars :=
  ((lstripControl defaultScheme.reverse).reverse.dropWhile
      (fun c => c.toNat ≤ 32)).filter (fun c => !isUnsafeByte c)

/-- The fragment and query splitting steps of `urlsplit`
(`url.split('#', 1)` then `url.split('?', 1)`): returns
(path, query, fragment). -/
def fragQuerySplit (url3 : Chars) : Chars × Chars × Chars :=
  let fr :=
    match splitOnce '#' url3 with
    | some (a, b) => (a, b)
    | none => (url3, [])
  let pq :=
    match splitOnce '?' fr.1 with
    | some (a, b) => (a, b)
    | none => (fr.1, [])
  (pq.1, pq.2, fr.2)

/-- CPython 3.11 `urlsplit` with `allow_fragments=True` (the only mode the
program uses).  `.error ()` models a raised `ValueError`. -/
def pyUrlsplit (po : PyOracles) (defaultScheme url0 : Chars) :
    Except Unit SplitResult :=
  let url1 := cleanUrl url0
  let ds := cleanScheme defaultScheme
  let (sch, url2) := splitScheme ds url1
  let (netloc, url3) :=
    if url2.take 2 = ['/', '/'] then
      ((url2.drop 2).takeWhile (fun c => !netlocDelim c),
       (url2.drop 2).dropWhile (fun c => !netlocDelim c))
    else ([], url2)
  if (netloc.contains '[' && !netloc.contains ']')
      || (netloc.contains ']' && !netloc.contains '[') then
    .error ()
  else if netloc.contains '[' && netloc.contains ']' &&
      !po.bracketOk (bracketedHost netloc) then
    .error ()
  else
    let pqf := fragQuerySplit url3
    if checknetlocOk po netloc then
      .ok ⟨sch, netloc, pqf.1, pqf.2.1, pqf.2.2⟩
    else .error ()

/-- Python `_splitparams`: first `';'` at or after the last `'/'` splits path
from params.  (The caller guarantees `';'` occurs; the fall-through branches
returning `(url, [])` match that contract.) -/
def pySplitparams (url : Chars) : Chars × Chars :=
  match splitLastSlash url with
  | some (a, b) =>
      match splitOnce ';' b with
      | some (b1, b2) => (a ++ '/' :: b1, b2)
      | none => (url, [])
  | none =>
      match splitOnce ';' url with
      | some (u1, u2) => (u1, u2)
      | none => (url, [])

/-- Schemes using params (`uses_params` in `urllib/parse.py`). -/
def usesParamsSchemes : List Chars :=
  ["", "ftp", "hdl", "prospero", "http", "imap", "https", "shttp", "rtsp",
   "rtspu", "sip", "sips", "mms", "sftp", "tel"].map String.toList

/-- Schemes using a netloc (`uses_netloc` in `urllib/parse.py`). -/
def usesNetlocSchemes : List Chars :=
  ["", "ftp", "http", "gopher", "nntp", "telnet", "imap", "wais", "file",
   "mms", "https", "shttp", "snews", "prospero", "rtsp", "rtspu", "rsync",
   "svn", "svn+ssh", "sftp", "nfs", "git", "git+ssh", "ws", "wss"].map
    String.toList

/-- Schemes allowing relative resolution (`uses_relative`). -/
def usesRelativeSchemes : List Chars :=
  ["", "ftp", "http", "gopher", "nntp", "imap", "wais", "file", "https",
   "shttp", "mms", "prospero", "rtsp", "rtspu", "sftp", "svn", "svn+ssh",
   "ws", "wss"].map String.toList

/-- CPython 3.11 `urlparse`: `urlsplit` plus the params split. -/
def pyUrlparse (po : PyOracles) (defaultScheme url : Chars) :
    Except Unit ParseResult :=
  match pyUrlsplit po defaultScheme url with
  | .error e => .error e
  | .ok s =>
      if usesParamsSchemes.contains s.scheme && s.path.contains ';' then
        let pp := pySplitparams s.path
        .ok ⟨s.scheme, s.netloc, pp.1, pp.2, s.query, s.fragment⟩
      else
        .ok ⟨s.scheme, s.netloc, s.path, [], s.query, s.fragment⟩

/-- CPython 3.11 `urlunsplit`. -/
def pyUrlunsplit (c : SplitResult) : Chars :=
  let u0 := c.path
  let u1 :=
    if c.netloc ≠ [] ∨
        (c.scheme ≠ [] ∧ usesNetlocSchemes.contains c.scheme ∧
          u0.take 2 ≠ ['/', '/']) then
      '/' :: '/' :: (c.netloc ++ (if u0 ≠ [] ∧ u0.take 1 ≠ ['/'] then '/' :: u0 else u0))
    else u0
  let u2 := if c.scheme ≠ [] then c.scheme ++ ':' :: u1 else u1
  let u3 := if c.query ≠ [] then u2 ++ '?' :: c.query else u2
  if c.fragment ≠ [] then u3 ++ '#' :: c.fragment else u3

/-- CPython 3.11 `urlunparse`: rejoin params, then `urlunsplit`.  This is what
`ParseResult.geturl()` calls. -/
def pyUrlunparse (p : ParseResult) : Chars :=
  let u := if p.params ≠ [] then p.path ++ ';' :: p.params else p.path
  pyUrlunsplit ⟨p.scheme, p.netloc, u, p.query, p.fragment⟩

/-- `normalize_url` (`src/app.py` lines 150-158): strip the fragment via
`urlparse(url)._replace(fragment='').geturl()`; on any exception return the
input unchanged. -/
def normalize_url (po : PyOracles) (url : Chars) : Chars :=
  match pyUrlparse po [] url with
  | .ok p => pyUrlunparse { p with fragment := [] }
  | .error _ => url

/-- `IGNORED_EXTENSIONS` (`src/app.py` lines 64-72). -/
def ignoredExtensions : List Chars :=
  [".pdf", ".doc", ".docx", ".xls", ".xlsx", ".ppt", ".pptx",
   ".zip", ".rar", ".tar", ".gz", ".7z",
   ".jpg", ".jpeg", ".png", ".gif", ".bmp", ".svg", ".ico",
   ".mp4", ".avi", ".mov", ".wmv", ".flv", ".webm",
   ".mp3", ".wav", ".flac", ".aac", ".ogg",
   ".exe", ".msi", ".dmg", ".deb", ".rpm",
   ".css", ".js", ".xml", ".json", ".txt"].map String.toList

/-- `excluded_domains` (`src/app.py` lines 125-130). -/
def excludedDomains : List Chars :=
  ["facebook.com", "twitter.com", "instagram.com", "youtube.com",
   "pinterest.com", "tiktok.com", "snapchat.com",
   "maps.google.com", "maps.app.goo.gl", "goo.gl", "bit.ly",
   "t.co", "tinyurl.com", "forms.gle", "docs.google.com"].map String.toList

/-- Python's substring test `sub in s`. -/
def isSubstring (sub : Chars) : Chars → Bool
  | [] => sub.isEmpty
  | c :: cs => sub.isPrefixOf (c :: cs) || isSubstring sub cs

/-- `is_valid_url` (`src/app.py` lines 93-148), following the source's check
order exactly; the surrounding `try/except` returns `False` on a parse
exception. -/
def is_valid_url (po : PyOracles) (url : Chars) : Bool :=
  match pyUrlparse po [] url with
  | .error _ => false
  | .ok p =>
      if p.scheme = [] ∨ p.netloc = [] then false
      else if ¬(p.scheme = "http".toList ∨ p.scheme = "https".toList) then false
      else if ignoredExtensions.any (fun ext => ext.isSuffixOf (pyLower p.path)) then
        false
      else if p.fragment ≠ [] ∧ p.path = [] then false
      else if "javascript:".toList.isPrefixOf (pyLower url) then false
      else if (["mailto", "tel", "ftp", "sftp"].map String.toList).contains p.scheme then
        false
      else
        let domain := pyLower p.netloc
        if isSubstring "linkedin.com".toList domain then
          isSubstring "/company/".toList p.path ||
            isSubstring "/school/".toList p.path ||
            isSubstring "/showcase/".toList p.path
        else if excludedDomains.any (fun d => isSubstring d domain) then false
        else true

example :
    normalize_url ⟨fun _ => true, fun _ => true⟩ "http://e.com/a?q=1#x".toList =
      "http://e.com/a?q=1".toList := by decide

example :
    normalize_url ⟨fun _ => true, fun _ => true⟩
        (normalize_url ⟨fun _ => true, fun _ => true⟩ "////".toList) ≠
      normalize_url ⟨fun _ => true, fun _ => true⟩ "////".toList := by decide

example : is_valid_url ⟨fun _ => true, fun _ => true⟩ "http://site.test/a".toList = true := by
  decide

example : is_valid_url ⟨fun _ => true, fun _ => true⟩ "http://facebook.com/x".toList = false := by
  decide

/-- Python `s.split(sep)` for a single-character separator (keeps empty
parts, as Python does). -/
def pySplitChar (sep : Char) : Chars → List Chars
  | [] => [[]]
  | c :: cs =>
      let r := pySplitChar sep cs
      if c = sep then [] :: r
      else
        match r with
        | h :: t => (c :: h) :: t
        | [] => [[c]]

/-- Python `segments[1:-1] = filter(None, segments[1:-1])`: drop empty parts
strictly between the first and last element. -/
def filterMiddle : List Chars → List Chars
  | [] => []
  | [a] => [a]
  | a :: rest =>
      match rest.getLast? with
      | some last => a :: ((rest.dropLast.filter fun s => !s.isEmpty) ++ [last])
      | none => [a]

/-- The dot-segment resolution loop of `urljoin`: `'..'` pops the last
resolved segment (ignoring pops from an empty list), `'.'` is skipped, other
segments are appended. -/
def resolveSegments (segs : List Chars) : List Chars :=
  segs.foldl
    (fun acc seg =>
      if seg = ".".toList then acc
      else if seg = "..".toList then acc.dropLast
      else acc ++ [seg])
    []

/-- CPython 3.11 `urljoin`.  `.error ()` models a `ValueError` escaping from
one of the two `urlparse` calls. -/
def pyUrljoin (po : PyOracles) (base url : Chars) : Except Unit Chars :=
  if base = [] then .ok url
  else if url = [] then .ok base
  else
    match pyUrlparse po [] base with
    | .error e => .error e
    | .ok b =>
        match pyUrlparse po b.scheme url with
        | .error e => .error e
        | .ok r =>
            if r.scheme ≠ b.scheme ∨ ¬ usesRelativeSchemes.contains r.scheme then
              .ok url
            else if usesNetlocSchemes.contains r.scheme ∧ r.netloc ≠ [] then
              .ok (pyUrlunparse r)
            else
              let netloc :=
                if usesNetlocSchemes.contains r.scheme then b.netloc else r.netloc
              if r.path = [] ∧ r.params = [] then
                let query := if r.query = [] then b.query else r.query
                .ok (pyUrlunparse
                  ⟨r.scheme, netloc, b.path, b.params, query, r.fragment⟩)
              else
                let baseParts0 := pySplitChar '/' b.path
                let baseParts :=
                  if baseParts0.getLast? ≠ some [] then baseParts0.dropLast
                  else baseParts0
                let segments :=
                  if r.path.take 1 = ['/'] then pySplitChar '/' r.path
                  else filterMiddle (baseParts ++ pySplitChar '/' r.path)
                let resolved0 := resolveSegments segments
                let resolved :=
                  if segments.getLast? = some ".".toList ∨
                      segments.getLast? = some "..".toList then
                    resolved0 ++ [[]]
                  else resolved0
                let joined := List.intercalate ['/'] resolved
                let fpath := if joined = [] then ['/'] else joined
                .ok (pyUrlunparse
                  ⟨r.scheme, netloc, fpath, r.params, r.query, r.fragment⟩)

/-- Python `str.strip()` with no argument: remove leading and trailing
whitespace (ASCII whitespace suffices for the inputs considered here). -/
def pyStripWs (l : Chars) : Chars :=
  let ws := fun c : Char =>
    c == ' ' || c == '\t' || c == '\n' || c == '\r' ||
      c == '\x0b' || c == '\x0c'
  (l.dropWhile ws).reverse.dropWhile ws |>.reverse

/-- Python `str.split()` with no argument: whitespace-separated tokens,
empty tokens dropped. -/
def pySplitWs (l : Chars) : List Chars :=
  let ws := fun c : Char =>
    c == ' ' || c == '\t' || c == '\n' || c == '\r' ||
      c == '\x0b' || c == '\x0c'
  (l.splitOnP ws).filter (fun s => !s.isEmpty)

/-- JSON values as produced by the program (only the shapes it builds). -/
inductive Json where
  | str (s : Chars)
  | num (n : Nat)
  | arr (items : List Json)
  | obj (members : List (Chars × Json))

/-- Hex digit characters (lowercase, as in CPython's json escaping). -/
def hexDigit (n : Nat) : Char :=
  if n < 10 then Char.ofNat (48 + n) else Char.ofNat (87 + n)

/-- Four-digit hex rendering of a code unit for a JSON escape. -/
def hex4 (n : Nat) : Chars :=
  [hexDigit (n / 4096 % 16), hexDigit (n / 256 % 16),
   hexDigit (n / 16 % 16), hexDigit (n % 16)]

/-- CPython `json` string-character escaping; `ensureAscii` mirrors the
`ensure_ascii` flag. -/
def jsonEscapeChar (ensureAscii : Bool) (c : Char) : Chars :=
  if c = '"' then ['\\', '"']
  else if c = '\\' then ['\\', '\\']
  else if c = '\n' then ['\\', 'n']
  else if c = '\r' then ['\\', 'r']
  else if c = '\t' then ['\\', 't']
  else if c = '\x08' then ['\\', 'b']
  else if c = '\x0c' then ['\\', 'f']
  else if c.toNat < 32 then '\\' :: 'u' :: hex4 c.toNat
  else if ensureAscii && decide (127 ≤ c.toNat) then
    if c.toNat < 65536 then '\\' :: 'u' :: hex4 c.toNat
    else
      let v := c.toNat - 65536
      ('\\' :: 'u' :: hex4 (55296 + v / 1024)) ++ ('\\' :: 'u' :: hex4 (56320 + v % 1024))
  else [c]

/-- CPython `json` string serialization. -/
def jsonDumpStr (ensureAscii : Bool) (s : Chars) : Chars :=
  '"' :: (s.flatMap (jsonEscapeChar ensureAscii)) ++ ['"']

/-- `indent * level` spaces. -/
def indentPad (indent level : Nat) : Chars := List.replicate (indent * level) ' '

mutual

/-- CPython `json.dumps(v, indent=indent, ensure_ascii=ensureAscii)` at a
given nesting level (default separators `(',', ': ')` with indent). -/
def pyDumps (indent : Nat) (ensureAscii : Bool) (level : Nat) : Json → Chars
  | .str s => jsonDumpStr ensureAscii s
  | .num n => (Nat.repr n).toList
  | .arr [] => ['[', ']']
  | .arr (x :: xs) =>
      '[' :: '\n' :: indentPad indent (level + 1) ++
        pyDumpsItems indent ensureAscii (level + 1) x xs ++
        '\n' :: indentPad indent level ++ [']']
  | .obj [] => ['\x7b', '\x7d']
  | .obj (m :: ms) =>
      '\x7b' :: '\n' :: indentPad indent (level + 1) ++
        pyDumpsMembers indent ensureAscii (level + 1) m ms ++
        '\n' :: indentPad indent level ++ ['\x7d']
termination_by j => sizeOf j
decreasing_by all_goals simp_wf

/-- Comma-and-newline separated array items. -/
def pyDumpsItems (indent : Nat) (ensureAscii : Bool) (level : Nat) :
    Json → List Json → Chars
  | x, [] => pyDumps indent ensureAscii level x
  | x, y :: ys =>
      pyDumps indent ensureAscii level x ++ ',' :: '\n' :: indentPad indent level ++
        pyDumpsItems indent ensureAscii level y ys
termination_by x xs => 1 + sizeOf x + sizeOf xs
decreasing_by all_goals (simp_wf <;> omega)

/-- Comma-and-newline separated object members (`"key": value`). -/
def pyDumpsMembers (indent : Nat) (ensureAscii : Bool) (level : Nat) :
    Chars × Json → List (Chars × Json) → Chars
  | (k, v), [] =>
      jsonDumpStr ensureAscii k ++ ':' :: ' ' :: pyDumps indent ensureAscii level v
  | (k, v), m :: ms =>
      jsonDumpStr ensureAscii k ++ ':' :: ' ' :: pyDumps indent ensureAscii level v ++
        ',' :: '\n' :: indentPad indent level ++ pyDumpsMembers indent ensureAscii level m ms
termination_by m ms => 1 + sizeOf m + sizeOf ms
decreasing_by all_goals (simp_wf <;> omega)

end

/-- One fetch attempt as seen by `fetch_rendered_page` (`src/app.py` lines
160-202): `.error` models any exception while launching the browser or
navigating (including timeouts); `.ok content` is the captured markup. -/
def fetchAttemptResult (attempts : Nat → Except Unit Chars) (k : Nat) : Option Chars :=
  match attempts k with
  | .ok content => if content ≠ [] ∧ content.length > 100 then some content else none
  | .error _ => none

/-- The retry loop of `fetch_rendered_page`: besides the returned markup, the
list of back-off sleeps (`asyncio.sleep(1 * (attempt + 1))`) is recorded. -/
def fetchLoop (attempts : Nat → Except Unit Chars) (maxRetries attempt : Nat)
    (sleeps : List Nat) : Chars × List Nat :=
  if attempt < maxRetries then
    match fetchAttemptResult attempts attempt with
    | some content => (content, sleeps)
    | none =>
        let sleeps' :=
          if attempt < maxRetries - 1 then sleeps ++ [1 * (attempt + 1)] else sleeps
        fetchLoop attempts maxRetries (attempt + 1) sleeps'
  else ([], sleeps)
termination_by maxRetries - attempt

/-- `fetch_rendered_page(url, proxy)` with the default `max_retries = 3`:
returns the first sufficiently long markup, or the empty string after all
attempts fail — never an exception. -/
def fetch_rendered_page (attempts : Nat → Except Unit Chars) : Chars × List Nat :=
  fetchLoop attempts 3 0 []

/-- What the extractor reads off a parsed document: the resolved values of
the BeautifulSoup queries in `clean_content` / `extract_links`.  The parsing
library is an external capability (spec §1), so it is supplied as an oracle
`parseHtml : Chars → Except Unit SoupView`; `.error` models any internal
parsing fault. -/
structure SoupView where
  titleTag : Option Chars
  metaDescription : Option Chars
  metaRobots : Option Chars
  metaKeywords : Option Chars
  canonicalHref : Option Chars
  languageAttr : Option Chars
  h1Texts : List Chars
  h2Texts : List Chars
  h3Texts : List Chars
  imgAlts : List Chars
  anchorHrefs : List Chars
  strippedText : Chars

/-- Values stored in the extractor's metadata mapping. -/
inductive MVal where
  | s (v : Chars)
  | l (v : List Chars)
  | n (v : Nat)
deriving DecidableEq, Repr

/-- The metadata mapping: insertion-ordered keys, as a Python dict. -/
abbrev Metadata := List (Chars × MVal)

/-- Python dict assignment `d[k] = v`: update in place, append if absent. -/
def setKey (k : Chars) (v : MVal) : Metadata → Metadata
  | [] => [(k, v)]
  | (k', v') :: rest =>
      if k' = k then (k, v) :: rest else (k', v') :: setKey k v rest

/-- Python dict lookup `d[k]` as an Option. -/
def getKey (k : Chars) : Metadata → Option MVal
  | [] => none
  | (k', v) :: rest => if k' = k then some v else getKey k rest

/-- String value of a metadata key, defaulting to the empty string (used
only where the source guarantees the key holds a string). -/
def mdStr (md : Metadata) (k : Chars) : Chars :=
  match getKey k md with
  | some (.s v) => v
  | _ => []

/-- List value of a metadata key, defaulting to the empty list. -/
def mdList (md : Metadata) (k : Chars) : List Chars :=
  match getKey k md with
  | some (.l v) => v
  | _ => []

/-- Numeric value of a metadata key, defaulting to zero. -/
def mdNat (md : Metadata) (k : Chars) : Nat :=
  match getKey k md with
  | some (.n v) => v
  | _ => 0

/-- The record returned by `clean_content`. -/
structure PageDict where
  metadata : Metadata
  markdown : Chars
  html : Chars
  text_content : Chars

/-- The initial all-default metadata mapping (`src/app.py` lines 240-254). -/
def initialMetadata : Metadata :=
  [("title".toList, .s []), ("description".toList, .s []),
   ("robots".toList, .s []), ("keywords".toList, .s []),
   ("canonical_url".toList, .s []),
   ("h1_tags".toList, .l []), ("h2_tags".toList, .l []),
   ("h3_tags".toList, .l []),
   ("image_alt_texts".toList, .l []),
   ("internal_links".toList, .l []), ("external_links".toList, .l []),
   ("word_count".toList, .n 0), ("language".toList, .s [])]

/-- The degraded metadata mapping built by the `except` arm of
`clean_content` (`src/app.py` lines 335-350).  Note which keys it lacks. -/
def fallbackMetadata : Metadata :=
  [("title".toList, .s "Error processing page".toList),
   ("description".toList, .s []),
   ("word_count".toList, .n 0),
   ("h1_tags".toList, .l []), ("h2_tags".toList, .l []),
   ("h3_tags".toList, .l []),
   ("image_alt_texts".toList, .l []),
   ("internal_links".toList, .l []), ("external_links".toList, .l [])]

/-- The oracles feeding the crawler: URL-library oracles, the opaque markup
parser, the opaque markdown renderer, the iteration order of a Python `set`
(unspecified by the language, hence adversarial), and the fetcher's overall
result per URL (empty string = soft failure). -/
structure CrawlEnv where
  po : PyOracles
  parseHtml : Chars → Except Unit SoupView
  markdownify : Chars → Chars
  setOrder : List Chars → List Chars
  fetch : Chars → Chars

/-- Link classification loop of `clean_content` (lines 291-307): resolve each
href against the page URL, keep admissible ones, sort into internal/external
by host; any per-link fault is skipped. -/
def classifyLinks (env : CrawlEnv) (pageUrl : Chars) (baseDomain : Chars)
    (hrefs : List Chars) : List Chars × List Chars :=
  hrefs.foldl
    (fun (acc : List Chars × List Chars) href0 =>
      let href := pyStripWs href0
      if href = [] then acc
      else
        match pyUrljoin env.po pageUrl href with
        | .error _ => acc
        | .ok full =>
            if is_valid_url env.po full then
              match pyUrlparse env.po [] full with
              | .ok p =>
                  if p.netloc = baseDomain then (acc.1 ++ [full], acc.2)
                  else (acc.1, acc.2 ++ [full])
              | .error _ => acc
            else acc)
    ([], [])

/-- `clean_content` (`src/app.py` lines 231-350).  The `try` body falls to
the degraded record if the markup parser faults (or if parsing the page URL
for the link classification raises); otherwise every metadata field is
filled from the document. -/
def clean_content (env : CrawlEnv) (html url : Chars) : PageDict :=
  match env.parseHtml html with
  | .error _ =>
      ⟨fallbackMetadata, [], html, []⟩
  | .ok soup =>
      match pyUrlparse env.po [] url with
      | .error _ => ⟨fallbackMetadata, [], html, []⟩
      | .ok basep =>
          let md0 := initialMetadata
          let md1 :=
            match soup.titleTag with
            | some t => setKey "title".toList (.s t) md0
            | none => md0
          let md2 :=
            match soup.metaDescription with
            | some v => setKey "description".toList (.s v) md1
            | none => md1
          let md3 :=
            match soup.metaRobots with
            | some v => setKey "robots".toList (.s v) md2
            | none => md2
          let md4 :=
            match soup.metaKeywords with
            | some v => setKey "keywords".toList (.s v) md3
            | none => md3
          let md5 :=
            match soup.canonicalHref with
            | some v => setKey "canonical_url".toList (.s v) md4
            | none => md4
          let md6 :=
            match soup.languageAttr with
            | some v => setKey "language".toList (.s v) md5
            | none => md5
          let md7 := setKey "h1_tags".toList
            (.l (soup.h1Texts.filter (fun t => !t.isEmpty))) md6
          let md8 := setKey "h2_tags".toList
            (.l (soup.h2Texts.filter (fun t => !t.isEmpty))) md7
          let md9 := setKey "h3_tags".toList
            (.l (soup.h3Texts.filter (fun t => !t.isEmpty))) md8
          let md10 := setKey "image_alt_texts".toList
            (.l ((soup.imgAlts.map pyStripWs).filter (fun t => !t.isEmpty))) md9
          let links := classifyLinks env url basep.netloc soup.anchorHrefs
          let md11 := setKey "internal_links".toList (.l links.1) md10
          let md12 := setKey "external_links".toList (.l links.2) md11
          let cleanText := List.intercalate [' '] (pySplitWs soup.strippedText)
          let md13 := setKey "word_count".toList
            (.n (if cleanText = [] then 0 else (pySplitWs cleanText).length)) md12
          let excerpt :=
            if cleanText.length > 1000 then cleanText.take 1000 ++ "...".toList
            else cleanText
          ⟨md13, env.markdownify html, html, excerpt⟩

/-- Insertion into a Python `set`, tracked in insertion order. -/
def setInsert (acc : List Chars) (x : Chars) : List Chars :=
  if acc.contains x then acc else acc ++ [x]

/-- `extract_links` (`src/app.py` lines 204-229): resolve, normalize and
filter each href, deduplicate through a `set`, and return `list(links)` —
whose order is the set's iteration order, modelled by `env.setOrder`. -/
def extract_links (env : CrawlEnv) (html baseUrl : Chars) :
    Except Unit (List Chars) :=
  match env.parseHtml html with
  | .error e => .error e
  | .ok soup =>
      .ok (env.setOrder
        (soup.anchorHrefs.foldl
          (fun acc href0 =>
            let href := pyStripWs href0
            if href = [] then acc
            else
              match pyUrljoin env.po baseUrl href with
              | .error _ => acc
              | .ok full =>
                  let nu := normalize_url env.po full
                  if is_valid_url env.po nu then setInsert acc nu else acc)
          []))

/-- One entry of `completed_pages` (`src/app.py` lines 728-740).  The
`timestamp` field (a wall-clock reading) is omitted: no claim concerns it. -/
structure PageSummary where
  url : Chars
  title : Chars
  word_count : Nat
  description : Chars
  h1_tags : List Chars
  h2_tags : List Chars
  content_preview : Chars
  internal_links_count : Nat
  external_links_count : Nat
deriving Repr

/-- Build the completed-page summary appended by the crawl loop. -/
def mkSummary (url : Chars) (content : PageDict) : PageSummary :=
  let title0 := mdStr content.metadata "title".toList
  let descr := mdStr content.metadata "description".toList
  ⟨url,
   (if title0 = [] then "Untitled".toList else title0),
   mdNat content.metadata "word_count".toList,
   (if descr.length > 200 then descr.take 200 ++ "...".toList else descr),
   (mdList content.metadata "h1_tags".toList).take 3,
   (mdList content.metadata "h2_tags".toList).take 5,
   (if content.text_content.length > 500 then
      content.text_content.take 500 ++ "...".toList
    else content.text_content),
   (mdList content.metadata "internal_links".toList).length,
   (mdList content.metadata "external_links".toList).length⟩

/-- Constructor arguments of `AsyncCrawler`; `domain` is
`urlparse(start_url).netloc` computed in `__init__`. -/
structure CrawlConfig where
  start_url : Chars
  allow_backward : Bool
  max_pages : Nat
  domain : Chars

/-- The crawler's mutable state together with the job-registry fields the
loop updates (`progress`, `current_url`, `completed_pages`, `errors`). -/
structure CrawlState where
  queue : List Chars
  visited : List Chars
  completed : List PageSummary
  errors : List Chars
  results : List (Chars × PageDict)
  currentUrl : Option Chars
  progress : Nat

/-- `AsyncCrawler.should_visit` (`src/app.py` lines 670-687).  The final
domain comparison reads `urlparse(normalized_url).netloc`; that parse cannot
raise when `is_valid_url` has accepted the URL, and the `.error` arm mirrors
rejection. -/
def should_visit (env : CrawlEnv) (cfg : CrawlConfig) (visited : List Chars)
    (url : Chars) : Bool :=
  let nu := normalize_url env.po url
  if visited.contains nu then false
  else if !is_valid_url env.po nu then false
  else if !cfg.allow_backward then
    match pyUrlparse env.po [] nu with
    | .ok p => p.netloc = cfg.domain
    | .error _ => false
  else true

/-- The error string recorded on a failed fetch (`src/app.py` line 713). -/
def fetchErrMsg (u : Chars) : Chars :=
  "Failed to fetch content from ".toList ++ u

/-- The error string recorded when processing after a successful fetch
raises (`src/app.py` line 751); the exception text is abstracted away. -/
def procErrMsg (u : Chars) : Chars :=
  "Error processing content from ".toList ++ u

/-- Enqueue the freshly discovered links (`src/app.py` lines 744-746): admit
a link only if `should_visit` holds and it is not already pending. -/
def enqueueLinks (env : CrawlEnv) (cfg : CrawlConfig) (visited : List Chars)
    (queue : List Chars) (links : List Chars) : List Chars :=
  links.foldl
    (fun q link =>
      if should_visit env cfg visited link && !q.contains link then q ++ [link]
      else q)
    queue

/-- The body of `AsyncCrawler.crawl`'s while loop (`src/app.py` lines
695-756), iterated on explicit fuel; the loop stops when the queue is empty
or the visited count reaches the page budget, and `fuel` bounds how many
iterations are unrolled (every reachable state is the result of some fuel). -/
def crawlLoop (env : CrawlEnv) (cfg : CrawlConfig) :
    Nat → CrawlState → CrawlState
  | 0, st => st
  | fuel + 1, st =>
      match st.queue with
      | [] => st
      | url :: rest =>
          if st.visited.length < cfg.max_pages then
            let nu := normalize_url env.po url
            if should_visit env cfg st.visited nu then
              let st1 : CrawlState :=
                { st with queue := rest, currentUrl := some nu,
                          progress := st.visited.length }
              let html := env.fetch nu
              if html = [] then
                crawlLoop env cfg fuel
                  { st1 with errors := st1.errors ++ [fetchErrMsg nu] }
              else
                let st2 : CrawlState :=
                  { st1 with visited := setInsert st1.visited nu }
                let content := clean_content env html nu
                let st3 : CrawlState :=
                  { st2 with results := st2.results ++ [(nu, content)],
                             completed := st2.completed ++ [mkSummary nu content] }
                match extract_links env html nu with
                | .error _ =>
                    crawlLoop env cfg fuel
                      { st3 with errors := st3.errors ++ [procErrMsg nu] }
                | .ok links =>
                    crawlLoop env cfg fuel
                      { st3 with
                          queue := enqueueLinks env cfg st3.visited st3.queue links }
            else crawlLoop env cfg fuel { st with queue := rest }
          else st

/-- The crawler's initial state (`AsyncCrawler.__init__` plus the job record
created by the submission endpoint: empty visited set, empty completed
pages, empty errors, the seed as the only queued URL). -/
def initialCrawlState (cfg : CrawlConfig) : CrawlState :=
  ⟨[cfg.start_url], [], [], [], [], none, 0⟩

/-- Split at the last occurrence of an arbitrary separator (Python
`str.rsplit(sep, 1)` when it occurs). -/
def splitLastChar (sep : Char) : Chars → Option (Chars × Chars)
  | [] => none
  | c :: cs =>
      match splitLastChar sep cs with
      | some (a, b) => some (c :: a, b)
      | none => if c = sep then some ([], cs) else none

/-- ASCII restriction of the regex class `[\w\-_.]` kept by the filename
sanitizer `re.sub(r'[^\w\-_.]', '_', s)`; every other character becomes an
underscore.  (Python's `\w` also matches non-ASCII word characters; all
concrete inputs here are ASCII.) -/
def isFilenameSafe (c : Char) : Bool :=
  c.isAlpha || c.isDigit || c == '_' || c == '-' || c == '.'

/-- `re.sub(r'[^\w\-_.]', '_', s)`. -/
def subNonWord (s : Chars) : Chars :=
  s.map (fun c => if isFilenameSafe c then c else '_')

/-- Python `s.strip('/')`. -/
def pyStripSlashes (l : Chars) : Chars :=
  ((l.dropWhile (fun c => c == '/')).reverse.dropWhile (fun c => c == '/')).reverse

/-- Per-page filename derivation (`src/app.py` lines 367-375): root path
maps to `homepage.json`; otherwise strip outer slashes, turn inner slashes
into underscores, replace unsafe characters, and ensure a `.json` suffix. -/
def page_filename (urlPath : Chars) : Chars :=
  if urlPath = ['/'] ∨ urlPath = [] then "homepage.json".toList
  else
    let f := subNonWord ((pyStripSlashes urlPath).map
      (fun c => if c = '/' then '_' else c))
    if ".json".toList.isSuffixOf f then f else f ++ ".json".toList

/-- The collision loop (`src/app.py` lines 377-383): while the name exists,
try `name_1.ext`, `name_2.ext`, ... (`rsplit('.', 1)` of the original
filename).  The fuel `existing.length + 1` always suffices because the
candidates are pairwise distinct. -/
def collisionLoop (existing : List Chars) (nm ext : Chars) :
    Nat → Nat → Chars
  | 0, k => nm ++ '_' :: (Nat.repr k).toList ++ '.' :: ext
  | fuel + 1, k =>
      let cand := nm ++ '_' :: (Nat.repr k).toList ++ '.' :: ext
      if existing.contains cand then collisionLoop existing nm ext fuel (k + 1)
      else cand

/-- Resolve a filename against the already-written ones. -/
def ensure_unique (existing : List Chars) (f : Chars) : Chars :=
  if existing.contains f then
    match splitLastChar '.' f with
    | some (nm, ext) => collisionLoop existing nm ext (existing.length + 1) 1
    | none => f
  else f

/-- One `{"filename", "url", "title"}` entry of `page_files`. -/
structure PageFileEntry where
  filename : Chars
  url : Chars
  title : Chars
deriving DecidableEq, Repr

/-- The `page_files` list as a JSON value (member order as in the source's
dict literal, lines 407-411). -/
def pageFilesJson (files : List PageFileEntry) : Json :=
  .arr (files.map (fun e =>
    .obj [("filename".toList, .str e.filename),
          ("url".toList, .str e.url),
          ("title".toList, .str e.title)]))

/-- The page list embedded in the generated loader script:
`json.dumps(page_files, indent=4)` — note `ensure_ascii` defaults to `True`
there (`src/app.py` line 466). -/
def loader_page_schemas (files : List PageFileEntry) : Chars :=
  pyDumps 4 true 0 (pageFilesJson files)

/-- `CDN_BASE_URL` (`src/app.py` line 54). -/
def cdnBaseUrl : Chars := "http://localhost:8000/cdn".toList

/-- The metadata mapping as a JSON value (for the per-page document). -/
def metadataJson (md : Metadata) : Json :=
  .obj (md.map (fun kv =>
    (kv.1,
     match kv.2 with
     | .s v => Json.str v
     | .l v => Json.arr (v.map Json.str)
     | .n v => Json.num v)))

/-- The per-page document `page_json_data` (`src/app.py` lines 386-401). -/
def pageJsonData (now : Chars) (url : Chars) (content : PageDict)
    (jsonLd : Json) : Json :=
  .obj
    [("page_info".toList, .obj
        [("url".toList, .str url),
         ("title".toList, .str (mdStr content.metadata "title".toList)),
         ("description".toList, .str (mdStr content.metadata "description".toList)),
         ("word_count".toList, .num (mdNat content.metadata "word_count".toList)),
         ("crawled_at".toList, .str now),
         ("h1_tags".toList, .arr ((mdList content.metadata "h1_tags".toList).map Json.str)),
         ("h2_tags".toList, .arr ((mdList content.metadata "h2_tags".toList).map Json.str)),
         ("internal_links_count".toList,
          .num (mdList content.metadata "internal_links".toList).length),
         ("external_links_count".toList,
          .num (mdList content.metadata "external_links".toList).length)]),
     ("json_ld".toList, jsonLd),
     ("metadata".toList, metadataJson content.metadata),
     ("content_preview".toList, .str (content.text_content.take 1000))]

/-- The `index_data` manifest (`src/app.py` lines 418-431). -/
def index_data (domain now jobId folder : Chars)
    (files : List PageFileEntry) : Json :=
  .obj
    [("website".toList, .obj
        [("domain".toList, .str domain),
         ("crawl_date".toList, .str now),
         ("total_pages".toList, .num files.length),
         ("job_id".toList, .str jobId)]),
     ("pages".toList, pageFilesJson files),
     ("usage_instructions".toList, .obj
        [("self_hosted".toList,
          .str "Copy all JSON files to your server and reference them individually".toList),
         ("cdn_integration".toList,
          .str ("Use our CDN: ".toList ++ cdnBaseUrl ++ '/' :: folder ++ ['/'])),
         ("script_tag".toList,
          .str ("<script src=\"".toList ++ cdnBaseUrl ++ '/' :: folder ++
            "/schema-loader.js\"></script>".toList))])]

/-- Job lifecycle states. -/
inductive JobStatus where
  | initializing
  | crawling
  | completed
  | failed
deriving DecidableEq, Repr

/-- The externally visible job record after the crawl task ends. -/
structure JobState where
  status : JobStatus
  progress : Nat
  completed_pages : List PageSummary
  errors : List Chars
  cdn_url : Option Chars
  download_url : Option Chars

/-- The diagnostic appended by `AsyncCrawler.crawl`'s outer handler
(`src/app.py` line 803). -/
def criticalErrMsg (jobId e : Chars) : Chars :=
  "Critical error in crawl job ".toList ++ jobId ++ ':' :: ' ' :: e

/-- The error recorded per page by the consolidated JSON-LD loop
(`src/app.py` line 788); exception text abstracted away. -/
def jsonGenErrMsg (u : Chars) : Chars :=
  "Error generating JSON-LD for ".toList ++ u

/-- Python `s.replace(sub, repl)` (leftmost, non-overlapping), driven by a
length fuel that always suffices. -/
def pyReplaceFuel (sub repl : Chars) : Nat → Chars → Chars
  | 0, l => l
  | _ + 1, [] => []
  | n + 1, c :: cs =>
      if sub ≠ [] ∧ sub.isPrefixOf (c :: cs) then
        repl ++ pyReplaceFuel sub repl n ((c :: cs).drop sub.length)
      else c :: pyReplaceFuel sub repl n cs

/-- Python `s.replace(sub, repl)` for nonempty `sub`. -/
def pyReplace (sub repl l : Chars) : Chars := pyReplaceFuel sub repl l.length l

/-- `classify_content_type` (`src/app.py` lines 571-589): ordered keyword
matching over the lowercased markdown (and title), first match wins.  The
string `â‚¹` reproduces the source file's literal bytes. -/
def classify_content_type (mdText : Chars) (metadata : Metadata) : Chars :=
  let lowerText := pyLower mdText
  let title := pyLower (mdStr metadata "title".toList)
  if (["faq", "frequently asked", "questions and answers"].map String.toList).any
      (fun w => isSubstring w lowerText) then "FAQPage".toList
  else if (["buy now", "add to cart", "purchase", "price", "$", "â‚¹"].map
      String.toList).any (fun w => isSubstring w lowerText) then "Product".toList
  else if (["service", "consulting", "solution"].map String.toList).any
      (fun w => isSubstring w (title ++ lowerText)) then "Service".toList
  else if (["about us", "about", "company", "team", "history"].map
      String.toList).any (fun w => isSubstring w lowerText) then "AboutPage".toList
  else if (["contact", "reach us", "get in touch", "address"].map
      String.toList).any (fun w => isSubstring w lowerText) then "ContactPage".toList
  else if (["blog", "article", "news", "post", "published"].map
      String.toList).any (fun w => isSubstring w lowerText) then "Article".toList
  else "WebPage".toList

/-- The data interpolated into the inference prompt (`src/app.py` lines
594-620): URL, title, description, classified type, first three H1s, first
five H2s, word count, and the first 3000 characters of markdown. -/
structure PromptParts where
  url : Chars
  title : Chars
  description : Chars
  contentType : Chars
  h1s : List Chars
  h2s : List Chars
  wordCount : Nat
  snippet : Chars
deriving DecidableEq, Repr

/-- Build the prompt data for a page record. -/
def mkPromptParts (page : Chars × PageDict) (ctype : Chars) : PromptParts :=
  ⟨page.1,
   mdStr page.2.metadata "title".toList,
   mdStr page.2.metadata "description".toList,
   ctype,
   (mdList page.2.metadata "h1_tags".toList).take 3,
   (mdList page.2.metadata "h2_tags".toList).take 5,
   mdNat page.2.metadata "word_count".toList,
   page.2.markdown.take 3000⟩

/-- Code-fence stripping of the inference response (lines 626-629). -/
def stripFences (t : Chars) : Chars :=
  if "```json".toList.isPrefixOf t then
    pyStripWs (pyReplace "```".toList [] (pyReplace "```json".toList [] t))
  else if "```".toList.isPrefixOf t then
    pyStripWs (pyReplace "```".toList [] t)
  else t

/-- Lookup in a JSON object's member list. -/
def jsonObjGet (k : Chars) : List (Chars × Json) → Option Json
  | [] => none
  | (k', v) :: rest => if k' = k then some v else jsonObjGet k rest

/-- Python dict assignment on a JSON object: overwrite in place or append. -/
def jsonObjSet (k : Chars) (v : Json) : List (Chars × Json) → List (Chars × Json)
  | [] => [(k, v)]
  | (k', v') :: rest =>
      if k' = k then (k, v) :: rest else (k', v') :: jsonObjSet k v rest

/-- External capabilities of the schema generator: the inference call and
the JSON parser applied to its response text. -/
structure GenEnv where
  infer : PromptParts → Except Unit Chars
  loads : Chars → Except Unit Json

/-- The `try` body of the generator (`src/app.py` lines 568-642): classify,
prompt, infer once, strip fences, parse, require a mapping, and default the
`@context` / `@type` markers. -/
def genTryBody (genv : GenEnv) (page : Chars × PageDict) : Except Unit Json :=
  let ctype := classify_content_type page.2.markdown page.2.metadata
  match genv.infer (mkPromptParts page ctype) with
  | .error e => .error e
  | .ok respText =>
      let t := stripFences (pyStripWs respText)
      match genv.loads t with
      | .error e => .error e
      | .ok j =>
          match j with
          | .obj ms =>
              let ctx :=
                match jsonObjGet "@context".toList ms with
                | some v => v
                | none => .str "https://schema.org".toList
              let ms1 := jsonObjSet "@context".toList ctx ms
              let ms2 :=
                match jsonObjGet "@type".toList ms1 with
                | some _ => ms1
                | none => ms1 ++ [("@type".toList, Json.str ctype)]
              .ok (.obj ms2)
          | _ => .error ()

/-- The fallback document (`src/app.py` lines 647-655), built purely from
local metadata. -/
def generate_fallback (now : Chars) (page : Chars × PageDict) : Json :=
  let title := mdStr page.2.metadata "title".toList
  let descr := mdStr page.2.metadata "description".toList
  .obj
    [("@context".toList, .str "https://schema.org".toList),
     ("@type".toList, .str "WebPage".toList),
     ("name".toList, .str (if title = [] then "Untitled Page".toList else title)),
     ("url".toList, .str page.1),
     ("description".toList,
      .str (if descr = [] then "No description available".toList else descr)),
     ("dateModified".toList, .str now),
     ("wordCount".toList, .num (mdNat page.2.metadata "word_count".toList))]

/-- The JSON-LD generator whose body appears at `src/app.py` lines 567-655,
given its intended parameter `page_data`.  In the source that body sits at
the tail of `create_schema_loader_script` and the name `generate_json_ld`
(called at lines 365 and 784) is never defined — see claim C1. -/
def generate_json_ld (genv : GenEnv) (now : Chars) (page : Chars × PageDict) :
    Json :=
  match genTryBody genv page with
  | .ok j => j
  | .error _ => generate_fallback now page

/-- The code at lines 567-655 exactly as scoped in the source: it executes
at the tail of `create_schema_loader_script`, where no variable `page_data`
exists.  Evaluating `page_data` raises `NameError` in the `try` body
(`classify_content_type(page_data['markdown'], ...)`), and the `except`
handler raises `NameError` again while formatting its log message
(`page_data['url']`), so the block always raises when the name is unbound. -/
def schema_loader_tail (genv : GenEnv) (now : Chars)
    (pageDataInScope : Option (Chars × PageDict)) : Except Unit Json :=
  match pageDataInScope with
  | none => .error ()
  | some page => .ok (generate_json_ld genv now page)

/-- The call `generate_json_ld(page_data)` (`src/app.py` lines 365 and 784):
the name `generate_json_ld` is bound nowhere in the module — its intended
body sits mis-scoped inside `create_schema_loader_script` (claim C1) — so
evaluating the call raises `NameError` unconditionally, before any argument
is inspected. -/
def generate_json_ld_call (page : Chars × PageDict) : Except Unit Json :=
  .error ()

/-- Oracles and fault injection for the packaging stage: URL-library
oracles, the generator-stage capabilities (consumed only by the model of the
mis-scoped tail of `create_schema_loader_script`), the timestamp, and I/O
fault switches for the write steps. -/
structure PackEnv where
  po : PyOracles
  genv : GenEnv
  now : Chars
  writeFault : Chars → Bool
  indexFault : Bool
  zipFault : Bool
  publishFault : Bool

/-- The per-page body of the packaging loop (`src/app.py` lines 362-415):
its first statement calls the undefined name `generate_json_ld`, so every
iteration raises `NameError`, the exception is caught at line 413, and the
page is skipped (`continue`) with nothing recorded in the job's error list.
The filename/document/write code below the call (lines 367-411) is
translated faithfully but unreachable. -/
def packPage (env : PackEnv) (existing : List Chars) (page : Chars × PageDict) :
    Option (Chars × Chars × PageFileEntry) :=
  match generate_json_ld_call page with
  | .error _ => none
  | .ok jsonLd =>
      match pyUrlparse env.po [] page.1 with
      | .error _ => none
      | .ok p =>
          let fname := ensure_unique existing (page_filename p.path)
          if env.writeFault fname then none
          else
            some (fname,
              pyDumps 2 false 0 (pageJsonData env.now page.1 page.2 jsonLd),
              ⟨fname, page.1, mdStr page.2.metadata "title".toList⟩)

/-- Fold `packPage` over all records, accumulating written files and the
`page_files` index entries. -/
def packPages (env : PackEnv) (pages : List (Chars × PageDict)) :
    List (Chars × Chars) × List PageFileEntry :=
  pages.foldl
    (fun acc page =>
      match packPage env (acc.1.map Prod.fst) page with
      | some (fname, bytes, entry) => (acc.1 ++ [(fname, bytes)], acc.2 ++ [entry])
      | none => acc)
    ([], [])

/-- `create_schema_loader_script` (`src/app.py` lines 454-655): it writes
`schema-loader.js` — whose `PAGE_SCHEMAS` constant embeds
`json.dumps(page_files, indent=4)` (line 466), the first component here —
plus a minified copy, and then control falls into the mis-scoped generator
block at lines 567-655, where `page_data` is unbound: the `try` body raises
`NameError` at line 591 and the `except` handler raises `NameError` again at
line 645 while formatting its log message.  So the outcome (second
component, `schema_loader_tail` with no `page_data` in scope) is always an
error and the function never returns normally. -/
def create_schema_loader_script (genv : GenEnv) (now : Chars)
    (files : List PageFileEntry) : Chars × Except Unit Json :=
  (loader_page_schemas files, schema_loader_tail genv now none)

/-- The text `str(e)` of the `NameError` escaping
`create_schema_loader_script` (Python renders the name in quotes; the quotes
are elided). -/
def loaderTailErrMsg : Chars := "name page_data is not defined".toList

/-- What one run of `create_website_folder_structure` leaves behind: the
index entries, the written per-page files, the index manifest and the
loader-embedded page list when those writes ran (`none` when control died
first), and the outcome — `(zipPath, cdnUrl)` on success. -/
structure PackTrace where
  pageFiles : List PageFileEntry
  writtenPages : List (Chars × Chars)
  indexJson : Option Json
  loaderEmbeddedList : Option Chars
  outcome : Except Chars (Chars × Chars)

/-- `create_website_folder_structure` (`src/app.py` lines 352-452): the
per-page loop (which skips every page — line 365 raises `NameError`), the
index manifest write, then `create_schema_loader_script` — which writes the
loader script and raises from its mis-scoped tail, so the archive and
publish steps are unreachable and the outcome is always an error. -/
def create_website_folder_structure (env : PackEnv) (jobId domain : Chars)
    (pages : List (Chars × PageDict)) : PackTrace :=
  let cleanDomain := subNonWord domain
  let folder := cleanDomain ++ '_' :: jobId
  let packed := packPages env pages
  if env.indexFault then
    ⟨packed.2, packed.1, none, none, .error "writing index.json failed".toList⟩
  else
    let idx := index_data domain env.now jobId folder packed.2
    match create_schema_loader_script env.genv env.now packed.2 with
    | (emb, .error _) =>
        ⟨packed.2, packed.1, some idx, some emb, .error loaderTailErrMsg⟩
    | (emb, .ok _) =>
        if env.zipFault then
          ⟨packed.2, packed.1, some idx, some emb,
            .error "creating the zip archive failed".toList⟩
        else if env.publishFault then
          ⟨packed.2, packed.1, some idx, some emb,
            .error "copying to the cdn directory failed".toList⟩
        else
          ⟨packed.2, packed.1, some idx, some emb,
            .ok ("crawler_data/".toList ++ folder ++ ".zip".toList,
              cdnBaseUrl ++ '/' :: folder ++ ['/'])⟩

/-- The tail of `AsyncCrawler.crawl` after the loop (`src/app.py` lines
758-806): package the results; on a packaging exception — which in this
program always occurs, since `create_schema_loader_script` raises — the
outer handler marks the job Failed, appending one diagnostic to the
accumulated errors.  The Completed arm (lines 763-798, with the consolidated
JSON-LD loop whose `generate_json_ld` calls all raise and append per-page
errors) is translated faithfully but unreachable. -/
def crawl_finalize (penv : PackEnv) (jobId domain : Chars) (st : CrawlState) :
    JobState :=
  match (create_website_folder_structure penv jobId domain st.results).outcome with
  | .error e =>
      ⟨.failed, st.progress, st.completed,
        st.errors ++ [criticalErrMsg jobId e], none, none⟩
  | .ok zc =>
      let genErrors := st.results.filterMap
        (fun page =>
          match generate_json_ld_call page with
          | .error _ => some (jsonGenErrMsg page.1)
          | .ok _ => none)
      ⟨.completed, st.visited.length, st.completed,
        st.errors ++ genErrors, some zc.2,
        some ("/download-folder/".toList ++ jobId)⟩

/-- A full crawl task (`AsyncCrawler.crawl`): run the loop, then finalize. -/
def crawl_run (env : CrawlEnv) (penv : PackEnv) (cfg : CrawlConfig)
    (jobId : Chars) (fuel : Nat) : JobState :=
  crawl_finalize penv jobId cfg.domain
    (crawlLoop env cfg fuel (initialCrawlState cfg))

theorem splitOnce_eq_none (sep : Char) (l : Chars) (h : sep ∉ l) :
    splitOnce sep l = none := by
  induction l with
  | nil => rfl
  | cons c cs ih =>
      simp only [List.mem_cons, not_or] at h
      have hc : ¬ c = sep := fun hh => h.1 hh.symm
      simp [splitOnce, hc, ih h.2]

theorem splitOnce_sound (sep : Char) (l a b : Chars)
    (h : splitOnce sep l = some (a, b)) : l = a ++ sep :: b ∧ sep ∉ a := by
  induction l generalizing a b with
  | nil => simp [splitOnce] at h
  | cons c cs ih =>
      unfold splitOnce at h
      split at h
      case isTrue hc =>
        simp only [Option.some.injEq, Prod.mk.injEq] at h
        obtain ⟨h1, h2⟩ := h
        subst h1
        subst h2
        simp [hc]
      case isFalse hc =>
        cases hsp : splitOnce sep cs with
        | none => rw [hsp] at h; exact absurd h (by simp)
        | some ab =>
            obtain ⟨x, y⟩ := ab
            rw [hsp] at h
            simp only [Option.some.injEq, Prod.mk.injEq] at h
            obtain ⟨h1, h2⟩ := h
            obtain ⟨hcs, hna⟩ := ih x y hsp
            subst h1
            subst h2
            constructor
            · simp [hcs]
            · simp only [List.mem_cons, not_or]
              exact ⟨fun he => hc he.symm, hna⟩

theorem splitOnce_append_left (sep : Char) (a b : Chars) (h : sep ∉ a) :
    splitOnce sep (a ++ sep :: b) = some (a, b) := by
  induction a with
  | nil => simp [splitOnce]
  | cons c cs ih =>
      simp only [List.mem_cons, not_or] at h
      have hc : ¬ c = sep := fun hh => h.1 hh.symm
      simp [splitOnce, hc, ih h.2]

theorem splitOnce_append_some (sep : Char) (a b a1 a2 : Chars)
    (h : splitOnce sep a = some (a1, a2)) :
    splitOnce sep (a ++ b) = some (a1, a2 ++ b) := by
  obtain ⟨rfl, hna⟩ := splitOnce_sound sep a a1 a2 h
  have h2 := splitOnce_append_left sep a1 (a2 ++ b) hna
  simpa using h2

theorem splitLastSlash_eq_none (l : Chars) (h : '/' ∉ l) :
    splitLastSlash l = none := by
  induction l with
  | nil => rfl
  | cons c cs ih =>
      simp only [List.mem_cons, not_or] at h
      have hc : ¬ c = '/' := fun hh => h.1 hh.symm
      simp [splitLastSlash, hc, ih h.2]

theorem splitLastSlash_ne_none (l : Chars) (h : '/' ∈ l) :
    splitLastSlash l ≠ none := by
  induction l with
  | nil => simp at h
  | cons c cs ih =>
      simp only [splitLastSlash]
      cases hsp : splitLastSlash cs with
      | some ab => simp
      | none =>
          simp only [List.mem_cons] at h
          rcases h with rfl | h
          · simp
          · exact absurd hsp (ih h)

theorem splitLastSlash_sound (l a b : Chars)
    (h : splitLastSlash l = some (a, b)) : l = a ++ '/' :: b ∧ '/' ∉ b := by
  induction l generalizing a b with
  | nil => simp [splitLastSlash] at h
  | cons c cs ih =>
      unfold splitLastSlash at h
      cases hsp : splitLastSlash cs with
      | some ab =>
          obtain ⟨x, y⟩ := ab
          rw [hsp] at h
          simp only [Option.some.injEq, Prod.mk.injEq] at h
          obtain ⟨h1, h2⟩ := h
          obtain ⟨hcs, hnb⟩ := ih x y hsp
          subst h1
          subst h2
          exact ⟨by simp [hcs], hnb⟩
      | none =>
          rw [hsp] at h
          by_cases hc : c = '/'
          · rw [if_pos hc] at h
            simp only [Option.some.injEq, Prod.mk.injEq] at h
            obtain ⟨h1, h2⟩ := h
            subst h1
            subst h2
            exact ⟨by simp [hc], fun hb => splitLastSlash_ne_none _ hb hsp⟩
          · rw [if_neg hc] at h
            exact absurd h (by simp)

theorem splitLastSlash_append (a b : Chars) (h : '/' ∉ b) :
    splitLastSlash (a ++ '/' :: b) = some (a, b) := by
  induction a with
  | nil =>
      simp only [List.nil_append, splitLastSlash, splitLastSlash_eq_none b h]
      simp
  | cons c cs ih =>
      simp only [List.cons_append, splitLastSlash]
      rw [show cs.append ('/' :: b) = cs ++ '/' :: b from rfl, ih]

theorem pySplitparams_reconstruct (u a b : Chars)
    (h : pySplitparams u = (a, b)) (hb : b ≠ []) : a ++ ';' :: b = u := by
  unfold pySplitparams at h
  cases hls : splitLastSlash u with
  | some xy =>
      obtain ⟨x, y⟩ := xy
      simp only [hls] at h
      obtain ⟨hy, _⟩ := splitLastSlash_sound u x y hls
      cases hso : splitOnce ';' y with
      | some y12 =>
          obtain ⟨y1, y2⟩ := y12
          obtain ⟨hy2, _⟩ := splitOnce_sound ';' y y1 y2 hso
          simp only [hso, Prod.mk.injEq] at h
          obtain ⟨h1, h2⟩ := h
          subst h1
          subst h2
          simp [hy, hy2]
      | none =>
          simp only [hso, Prod.mk.injEq] at h
          exact absurd h.2.symm hb
  | none =>
      simp only [hls] at h
      cases hso : splitOnce ';' u with
      | some u12 =>
          obtain ⟨u1, u2⟩ := u12
          obtain ⟨hu, _⟩ := splitOnce_sound ';' u u1 u2 hso
          simp only [hso, Prod.mk.injEq] at h
          obtain ⟨h1, h2⟩ := h
          subst h1
          subst h2
          exact hu.symm
      | none =>
          simp only [hso, Prod.mk.injEq] at h
          exact absurd h.2.symm hb

theorem pySplitparams_no_semi (u : Chars) (h : ';' ∉ u) :
    pySplitparams u = (u, []) := by
  unfold pySplitparams
  cases hls : splitLastSlash u with
  | some xy =>
      obtain ⟨x, y⟩ := xy
      obtain ⟨hy, _⟩ := splitLastSlash_sound u x y hls
      have hny : ';' ∉ y := fun hm => h (by simp [hy, hm])
      simp only [splitOnce_eq_none ';' y hny]
  | none => simp only [splitOnce_eq_none ';' u h]

theorem pySplitparams_idem (u a : Chars) (h : pySplitparams u = (a, [])) :
    pySplitparams a = (a, []) := by
  unfold pySplitparams at h
  cases hls : splitLastSlash u with
  | some xy =>
      obtain ⟨x, y⟩ := xy
      simp only [hls] at h
      obtain ⟨hy, hns⟩ := splitLastSlash_sound u x y hls
      cases hso : splitOnce ';' y with
      | some y12 =>
          obtain ⟨y1, y2⟩ := y12
          simp only [hso, Prod.mk.injEq] at h
          obtain ⟨h1, _⟩ := h
          subst h1
          obtain ⟨hy12, hne⟩ := splitOnce_sound ';' y y1 y2 hso
          have hs1 : '/' ∉ y1 := fun hm => hns (by simp [hy12, hm])
          unfold pySplitparams
          simp only [splitLastSlash_append x y1 hs1,
            splitOnce_eq_none ';' y1 hne]
      | none =>
          simp only [hso, Prod.mk.injEq] at h
          obtain ⟨h1, _⟩ := h
          subst h1
          unfold pySplitparams
          simp only [hls, hso]
  | none =>
      simp only [hls] at h
      cases hso : splitOnce ';' u with
      | some u12 =>
          obtain ⟨u1, u2⟩ := u12
          obtain ⟨hu, hne⟩ := splitOnce_sound ';' u u1 u2 hso
          simp only [hso, Prod.mk.injEq] at h
          obtain ⟨h1, _⟩ := h
          subst h1
          have hnsl : '/' ∉ u := fun hm => splitLastSlash_ne_none u hm hls
          have hs1 : '/' ∉ u1 := fun hm => hnsl (by simp [hu, hm])
          unfold pySplitparams
          simp only [splitLastSlash_eq_none u1 hs1,
            splitOnce_eq_none ';' u1 hne]
      | none =>
          simp only [hso, Prod.mk.injEq] at h
          obtain ⟨h1, _⟩ := h
          subst h1
          unfold pySplitparams
          simp only [hls, hso]

theorem pySplitparams_mem (u a b : Chars) (h : pySplitparams u = (a, b)) :
    (∀ c ∈ a, c ∈ u) ∧ ∀ c ∈ b, c ∈ u := by
  unfold pySplitparams at h
  cases hls : splitLastSlash u with
  | some xy =>
      obtain ⟨x, y⟩ := xy
      simp only [hls] at h
      obtain ⟨hy, _⟩ := splitLastSlash_sound u x y hls
      cases hso : splitOnce ';' y with
      | some y12 =>
          obtain ⟨y1, y2⟩ := y12
          obtain ⟨hy12, _⟩ := splitOnce_sound ';' y y1 y2 hso
          simp only [hso, Prod.mk.injEq] at h
          obtain ⟨h1, h2⟩ := h
          subst h1
          subst h2
          constructor
          · intro c hc
            simp only [List.mem_append, List.mem_cons] at hc
            rcases hc with hc | hc | hc <;> simp [hy, hy12, hc]
          · intro c hc
            simp [hy, hy12, hc]
      | none =>
          simp only [hso, Prod.mk.injEq] at h
          obtain ⟨h1, h2⟩ := h
          subst h1
          subst h2
          exact ⟨fun c hc => hc, fun c hc => by simp at hc⟩
  | none =>
      simp only [hls] at h
      cases hso : splitOnce ';' u with
      | some u12 =>
          obtain ⟨u1, u2⟩ := u12
          obtain ⟨hu, _⟩ := splitOnce_sound ';' u u1 u2 hso
          simp only [hso, Prod.mk.injEq] at h
          obtain ⟨h1, h2⟩ := h
          subst h1
          subst h2
          exact ⟨fun c hc => by simp [hu, hc], fun c hc => by simp [hu, hc]⟩
      | none =>
          simp only [hso, Prod.mk.injEq] at h
          obtain ⟨h1, h2⟩ := h
          subst h1
          subst h2
          exact ⟨fun c hc => hc, fun c hc => by simp at hc⟩

theorem takeWhile_append_stop (p : Char → Bool) (a b : Chars)
    (ha : ∀ c ∈ a, p c = true) (hb : ∀ c, b.head? = some c → p c = false) :
    (a ++ b).takeWhile p = a ∧ (a ++ b).dropWhile p = b := by
  induction a with
  | nil =>
      simp only [List.nil_append]
      cases b with
      | nil => simp
      | cons c cs =>
          have := hb c rfl
          simp [List.takeWhile_cons, List.dropWhile_cons, this]
  | cons x xs ih =>
      have hx : p x = true := ha x (by simp)
      have ih' := ih (fun c hc => ha c (by simp [hc]))
      simp [List.takeWhile_cons, List.dropWhile_cons, hx, ih'.1, ih'.2]

theorem dropWhile_head_prop (p : Char → Bool) (l : Chars) :
    ∀ c, (l.dropWhile p).head? = some c → p c = false := by
  induction l with
  | nil => intro c hc; simp at hc
  | cons x xs ih =>
      intro c hc
      by_cases hx : p x
      · rw [List.dropWhile_cons, if_pos hx] at hc
        exact ih c hc
      · rw [List.dropWhile_cons, if_neg hx] at hc
        simp only [List.head?_cons, Option.some.injEq] at hc
        subst hc
        exact Bool.eq_false_iff.mpr hx

theorem head_of_append_prefix (a b : Chars) (h : a ≠ []) :
    (a ++ b).head? = a.head? := by
  cases a with
  | nil => exact absurd rfl h
  | cons x xs => simp

theorem mem_of_mem_takeWhile (p : Char → Bool) (l : Chars) (c : Char)
    (h : c ∈ l.takeWhile p) : c ∈ l :=
  (l.takeWhile_prefix p).subset h

theorem mem_of_mem_dropWhile (p : Char → Bool) (l : Chars) (c : Char)
    (h : c ∈ l.dropWhile p) : c ∈ l :=
  (l.dropWhile_suffix p).subset h

theorem prop_of_mem_takeWhile (p : Char → Bool) (l : Chars) (c : Char)
    (h : c ∈ l.takeWhile p) : p c = true := by
  induction l with
  | nil => simp [List.takeWhile] at h
  | cons x xs ih =>
      rw [List.takeWhile_cons] at h
      by_cases hx : p x
      · rw [if_pos hx] at h
        rcases List.mem_cons.mp h with rfl | h
        · exact hx
        · exact ih h
      · rw [if_neg hx] at h
        simp at h

/-- Every character of the post-strip, post-filter working string is free of
the unsafe bytes. -/
theorem mem_cleaned_not_unsafe (u : Chars) (c : Char)
    (h : c ∈ (lstripControl u).filter (fun c => !isUnsafeByte c)) :
    isUnsafeByte c = false := by
  have := List.of_mem_filter h
  simpa using this

/-- Every character of the cleaned working string is free of unsafe bytes. -/
theorem mem_cleanUrl_not_unsafe (u : Chars) (c : Char) (h : c ∈ cleanUrl u) :
    isUnsafeByte c = false := by
  have := List.of_mem_filter h
  simpa using this

/-- Characters of a `splitScheme` remainder belong to the input. -/
theorem splitScheme_rest_subset (ds u : Chars) (sch url2 : Chars)
    (h : splitScheme ds u = (sch, url2)) : ∀ c ∈ url2, c ∈ u := by
  unfold splitScheme at h
  cases hso : splitOnce ':' u with
  | none =>
      simp only [hso, Prod.mk.injEq] at h
      obtain ⟨_, h2⟩ := h
      subst h2
      exact fun c hc => hc
  | some pr =>
      obtain ⟨pre, rest⟩ := pr
      simp only [hso] at h
      obtain ⟨hu, _⟩ := splitOnce_sound ':' u pre rest hso
      cases pre with
      | nil =>
          simp only [Prod.mk.injEq] at h
          obtain ⟨_, h2⟩ := h
          subst h2
          exact fun c hc => hc
      | cons p ps =>
          by_cases hguard : p.isAlpha && (p :: ps).all isSchemeChar
          · simp only [if_pos hguard, Prod.mk.injEq] at h
            obtain ⟨_, h2⟩ := h
            subst h2
            intro c hc
            simp [hu, hc]
          · simp only [if_neg hguard, Prod.mk.injEq] at h
            obtain ⟨_, h2⟩ := h
            subst h2
            exact fun c hc => hc

theorem splitOnce_ne_none (sep : Char) (l : Chars) (h : sep ∈ l) :
    splitOnce sep l ≠ none := by
  induction l with
  | nil => simp at h
  | cons c cs ih =>
      unfold splitOnce
      by_cases hc : c = sep
      · simp [hc]
      · rw [if_neg hc]
        cases hsp : splitOnce sep cs with
        | some ab => simp
        | none =>
            simp only [List.mem_cons] at h
            rcases h with rfl | h
            · exact absurd rfl hc
            · exact absurd hsp (ih h)

theorem splitOnce_none_mem (sep : Char) (l : Chars)
    (h : splitOnce sep l = none) : sep ∉ l :=
  fun hm => splitOnce_ne_none sep l hm h

/-- Specification of `fragQuerySplit`: the path holds no `'#'` or `'?'`, the
query no `'#'`; every character of path and query comes from the input; a
nonempty path starts where the input starts; and the input is the path
followed by the optional query and fragment parts. -/
theorem fragQuerySplit_spec (u3 : Chars) :
    '#' ∉ (fragQuerySplit u3).1 ∧ '?' ∉ (fragQuerySplit u3).1 ∧
    '#' ∉ (fragQuerySplit u3).2.1 ∧
    (∀ c ∈ (fragQuerySplit u3).1, c ∈ u3) ∧
    (∀ c ∈ (fragQuerySplit u3).2.1, c ∈ u3) ∧
    ((fragQuerySplit u3).1 ≠ [] →
      (fragQuerySplit u3).1.head? = u3.head?) := by
  unfold fragQuerySplit
  cases hfr : splitOnce '#' u3 with
  | some ab =>
      obtain ⟨u4, frag⟩ := ab
      obtain ⟨hu3, hnh⟩ := splitOnce_sound '#' u3 u4 frag hfr
      simp only
      cases hq : splitOnce '?' u4 with
      | some pq =>
          obtain ⟨pth, q⟩ := pq
          obtain ⟨hu4, hnq⟩ := splitOnce_sound '?' u4 pth q hq
          simp only
          refine ⟨fun hm => hnh (by simp [hu4, hm]), hnq,
            fun hm => hnh (by simp [hu4, hm]),
            fun c hc => by simp [hu3, hu4, hc],
            fun c hc => by simp [hu3, hu4, hc], fun hne => ?_⟩
          rw [hu3, hu4]
          rw [List.append_assoc, head_of_append_prefix pth _ hne]
      | none =>
          have hnq := splitOnce_none_mem '?' u4 hq
          simp only
          refine ⟨hnh, hnq, by simp, fun c hc => by simp [hu3, hc],
            fun c hc => by simp at hc, fun hne => ?_⟩
          rw [hu3, head_of_append_prefix u4 _ hne]
  | none =>
      have hnh := splitOnce_none_mem '#' u3 hfr
      simp only
      cases hq : splitOnce '?' u3 with
      | some pq =>
          obtain ⟨pth, q⟩ := pq
          obtain ⟨hu3, hnq⟩ := splitOnce_sound '?' u3 pth q hq
          simp only
          refine ⟨fun hm => hnh (by simp [hu3, hm]), hnq,
            fun hm => hnh (by simp [hu3, hm]),
            fun c hc => by simp [hu3, hc],
            fun c hc => by simp [hu3, hc], fun hne => ?_⟩
          rw [hu3, head_of_append_prefix pth _ hne]
      | none =>
          have hnq := splitOnce_none_mem '?' u3 hq
          simp only
          exact ⟨hnh, hnq, by simp, fun c hc => hc, fun c hc => by simp at hc,
            by simp⟩

/-- Shape facts about a successful `pyUrlsplit` result, read off the run. -/
theorem pyUrlsplit_shape (po : PyOracles) (ds u : Chars) (s : SplitResult)
    (h : pyUrlsplit po ds u = .ok s) :
    (∀ c ∈ s.netloc, netlocDelim c = false) ∧
    (∀ c ∈ s.netloc, isUnsafeByte c = false) ∧
    ((s.netloc.contains '[' && !s.netloc.contains ']')
      || (s.netloc.contains ']' && !s.netloc.contains '[')) = false ∧
    (s.netloc.contains '[' && s.netloc.contains ']'
      && !po.bracketOk (bracketedHost s.netloc)) = false ∧
    checknetlocOk po s.netloc = true ∧
    '#' ∉ s.path ∧ '?' ∉ s.path ∧ (∀ c ∈ s.path, isUnsafeByte c = false) ∧
    '#' ∉ s.query ∧ (∀ c ∈ s.query, isUnsafeByte c = false) ∧
    (s.netloc ≠ [] → s.path = [] ∨ s.path.take 1 = ['/']) := by
  unfold pyUrlsplit at h
  rcases hss : splitScheme (cleanScheme ds) (cleanUrl u) with ⟨sch, url2⟩
  simp only [hss] at h
  have hurl2 : ∀ c ∈ url2, isUnsafeByte c = false := fun c hc =>
    mem_cleanUrl_not_unsafe u c
      (splitScheme_rest_subset (cleanScheme ds) (cleanUrl u) sch url2 hss c hc)
  by_cases hnet : url2.take 2 = ['/', '/']
  · simp only [if_pos hnet] at h
    split at h
    · exact absurd h (by simp)
    · split at h
      · exact absurd h (by simp)
      · split at h
        next hchk =>
          rename_i hbr1 hbr2
          simp only [Except.ok.injEq] at h
          subst h
          obtain ⟨hp1, hp2, hp3, hp4, hp5, hhead⟩ :=
            fragQuerySplit_spec ((url2.drop 2).dropWhile (fun c => !netlocDelim c))
          have hnlmem : ∀ c ∈ (url2.drop 2).takeWhile (fun c => !netlocDelim c),
              c ∈ url2 := fun c hc =>
            List.drop_subset 2 url2 (mem_of_mem_takeWhile _ _ c hc)
          have hu3mem : ∀ c ∈ (url2.drop 2).dropWhile (fun c => !netlocDelim c),
              c ∈ url2 := fun c hc =>
            List.drop_subset 2 url2 (mem_of_mem_dropWhile _ _ c hc)
          refine ⟨?_, ?_, by simpa using hbr1, by simpa using hbr2, hchk,
            hp1, hp2, ?_, hp3, ?_, ?_⟩
          · intro c hc
            have := prop_of_mem_takeWhile _ _ c hc
            simpa using this
          · exact fun c hc => hurl2 c (hnlmem c hc)
          · exact fun c hc => hurl2 c (hu3mem c (hp4 c hc))
          · exact fun c hc => hurl2 c (hu3mem c (hp5 c hc))
          · intro _
            by_cases hpe :
                (fragQuerySplit
                  ((url2.drop 2).dropWhile (fun c => !netlocDelim c))).1 = []
            · exact Or.inl hpe
            · right
              have hh := hhead hpe
              obtain ⟨c, hc⟩ : ∃ c,
                  (fragQuerySplit
                    ((url2.drop 2).dropWhile (fun c => !netlocDelim c))).1.head? =
                    some c := by
                cases hx : (fragQuerySplit
                    ((url2.drop 2).dropWhile (fun c => !netlocDelim c))).1 with
                | nil => exact absurd hx hpe
                | cons a l => exact ⟨a, by simp [hx]⟩
              have hcd : netlocDelim c = true := by
                have := dropWhile_head_prop (fun c => !netlocDelim c)
                  (url2.drop 2) c (hh ▸ hc)
                simpa using this
              have hcmem : c ∈ (fragQuerySplit
                  ((url2.drop 2).dropWhile (fun c => !netlocDelim c))).1 := by
                cases hx : (fragQuerySplit
                    ((url2.drop 2).dropWhile (fun c => !netlocDelim c))).1 with
                | nil => exact absurd hx hpe
                | cons a l =>
                    rw [hx] at hc
                    simp only [List.head?_cons, Option.some.injEq] at hc
                    simp [hx, hc]
              have hslash : c = '/' := by
                simp only [netlocDelim, Bool.or_eq_true, beq_iff_eq] at hcd
                rcases hcd with (rfl | rfl) | rfl
                · rfl
                · exact absurd hcmem hp2
                · exact absurd hcmem hp1
              subst hslash
              cases hx : (fragQuerySplit
                  ((url2.drop 2).dropWhile (fun c => !netlocDelim c))).1 with
              | nil => exact absurd hx hpe
              | cons a l =>
                  rw [hx] at hc
                  simp only [List.head?_cons, Option.some.injEq] at hc
                  simp [hx, hc]
        next => exact absurd h (by simp)
  · simp only [if_neg hnet] at h
    split at h
    · exact absurd h (by simp)
    · split at h
      · exact absurd h (by simp)
      · split at h
        next hchk =>
          simp only [Except.ok.injEq] at h
          subst h
          obtain ⟨hp1, hp2, hp3, hp4, hp5, _⟩ := fragQuerySplit_spec url2
          exact ⟨by simp, by simp, by simp, by simp, hchk, hp1, hp2,
            fun c hc => hurl2 c (hp4 c hc), hp3,
            fun c hc => hurl2 c (hp5 c hc), by simp⟩
        next => exact absurd h (by simp)

theorem lstripControl_cons (c : Char) (l : Chars) (hc : ¬ c.toNat ≤ 32) :
    lstripControl (c :: l) = c :: l := by
  unfold lstripControl
  rw [List.dropWhile_cons, if_neg (by simpa using hc)]

/-- Reassembling a well-shaped `urlsplit` result with an http or https
scheme, a nonempty netloc and no fragment, and splitting it again, recovers
exactly the same components. -/
theorem pyUrlsplit_roundtrip (po : PyOracles) (s : SplitResult)
    (hsch : s.scheme = "http".toList ∨ s.scheme = "https".toList)
    (hnl : s.netloc ≠ [])
    (hnd : ∀ c ∈ s.netloc, netlocDelim c = false)
    (hnc : ∀ c ∈ s.netloc, isUnsafeByte c = false)
    (hbr1 : ((s.netloc.contains '[' && !s.netloc.contains ']')
      || (s.netloc.contains ']' && !s.netloc.contains '[')) = false)
    (hbr2 : (s.netloc.contains '[' && s.netloc.contains ']'
      && !po.bracketOk (bracketedHost s.netloc)) = false)
    (hchk : checknetlocOk po s.netloc = true)
    (hph : '#' ∉ s.path) (hpq : '?' ∉ s.path)
    (hpc : ∀ c ∈ s.path, isUnsafeByte c = false)
    (hqh : '#' ∉ s.query) (hqc : ∀ c ∈ s.query, isUnsafeByte c = false)
    (hps : s.path = [] ∨ s.path.take 1 = ['/'])
    (hfr : s.fragment = []) :
    pyUrlsplit po [] (pyUrlunsplit s) = .ok s := by
  obtain ⟨sch, nl, pth, q, frg⟩ := s
  simp only at hsch hnl hnd hnc hbr1 hbr2 hchk hph hpq hpc hqh hqc hps hfr
  subst hfr
  -- the reassembled string
  have hschne : sch ≠ [] := by rcases hsch with rfl | rfl <;> simp
  have hx : (if pth ≠ [] ∧ pth.take 1 ≠ ['/'] then '/' :: pth else pth) = pth := by
    rcases hps with hp0 | hp1
    · rw [if_neg]; simp [hp0]
    · rw [if_neg]; simp [hp1]
  have hunsplit : pyUrlunsplit ⟨sch, nl, pth, q, []⟩ =
      sch ++ ':' :: '/' :: '/' ::
        (nl ++ (pth ++ (if q ≠ [] then '?' :: q else []))) := by
    unfold pyUrlunsplit
    simp only
    rw [if_pos (Or.inl hnl), hx, if_pos hschne]
    by_cases hq : q = []
    · subst hq; simp
    · rw [if_neg (show ¬ (([] : Chars) ≠ []) by simp),
        if_pos (show q ≠ [] from hq)]
      simp [hq]
  set tl := pth ++ (if q ≠ [] then '?' :: q else []) with htl
  rw [hunsplit]
  -- character-level cleanliness of the whole string
  have hschclean : ∀ c ∈ sch, isUnsafeByte c = false := by
    rcases hsch with rfl | rfl <;> decide
  have htlclean : ∀ c ∈ tl, isUnsafeByte c = false := by
    intro c hc
    rw [htl] at hc
    simp only [List.mem_append] at hc
    rcases hc with hc | hc
    · exact hpc c hc
    · by_cases hq : q = []
      · simp [hq] at hc
      · rw [if_pos (by simpa using hq)] at hc
        rcases List.mem_cons.mp hc with rfl | hc
        · decide
        · exact hqc c hc
  have hclean : cleanUrl (sch ++ ':' :: '/' :: '/' :: (nl ++ tl)) =
      sch ++ ':' :: '/' :: '/' :: (nl ++ tl) := by
    unfold cleanUrl
    have hhead : lstripControl (sch ++ ':' :: '/' :: '/' :: (nl ++ tl)) =
        sch ++ ':' :: '/' :: '/' :: (nl ++ tl) := by
      rcases hsch with rfl | rfl <;>
        exact lstripControl_cons _ _ (by decide)
    rw [hhead, List.filter_eq_self.mpr]
    intro c hc
    simp only [List.mem_append, List.mem_cons] at hc
    rcases hc with hc | rfl | rfl | rfl | hc | hc
    · simp [hschclean c hc]
    · decide
    · decide
    · decide
    · simp [hnc c hc]
    · simp [htlclean c hc]
  unfold pyUrlsplit
  dsimp only
  rw [hclean]
  -- scheme detection
  have hnocolon : ':' ∉ sch := by rcases hsch with rfl | rfl <;> decide
  have hscheme : splitScheme (cleanScheme []) (sch ++ ':' :: '/' :: '/' :: (nl ++ tl)) =
      (sch, '/' :: '/' :: (nl ++ tl)) := by
    unfold splitScheme
    rw [splitOnce_append_left ':' sch _ hnocolon]
    rcases hsch with rfl | rfl <;> simp +decide [pyLower]
  simp only [hscheme]
  -- netloc recovery
  have hnlpred : ∀ c ∈ nl, (fun c => !netlocDelim c) c = true := by
    intro c hc
    simp [hnd c hc]
  have htlhead : ∀ c, tl.head? = some c → (fun c => !netlocDelim c) c = false := by
    intro c hc
    rw [htl] at hc
    rcases hps with hp0 | hp1
    · subst hp0
      by_cases hq : q = []
      · simp [hq] at hc
      · rw [if_pos (by simpa using hq)] at hc
        simp only [List.nil_append, List.head?_cons, Option.some.injEq] at hc
        subst hc
        decide
    · cases pth with
      | nil => simp at hp1
      | cons a l =>
          simp only [List.take, List.cons.injEq] at hp1
          obtain ⟨rfl, -⟩ := hp1
          simp only [List.cons_append, List.head?_cons, Option.some.injEq] at hc
          subst hc
          decide
  obtain ⟨htw, hdw⟩ := takeWhile_append_stop (fun c => !netlocDelim c) nl tl
    hnlpred htlhead
  rw [show ('/' :: '/' :: (nl ++ tl)).take 2 = ['/', '/'] from rfl]
  rw [if_pos rfl]
  rw [show ('/' :: '/' :: (nl ++ tl)).drop 2 = nl ++ tl from rfl]
  rw [htw, hdw]
  rw [if_neg (by simpa using hbr1), if_neg (by simpa using hbr2)]
  -- fragment and query
  have hfq : fragQuerySplit tl = (pth, q, []) := by
    unfold fragQuerySplit
    have hnh : '#' ∉ tl := by
      intro hm
      rw [htl] at hm
      simp only [List.mem_append] at hm
      rcases hm with hm | hm
      · exact hph hm
      · by_cases hq : q = []
        · simp [hq] at hm
        · rw [if_pos (by simpa using hq)] at hm
          rcases List.mem_cons.mp hm with he | hm
          · exact absurd he (by decide)
          · exact hqh hm
    rw [splitOnce_eq_none '#' tl hnh]
    simp only
    by_cases hq : q = []
    · subst hq
      have htp : tl = pth := by rw [htl]; simp
      rw [htp, splitOnce_eq_none '?' pth hpq]
    · have htp : tl = pth ++ '?' :: q := by rw [htl, if_pos (show q ≠ [] from hq)]
      rw [htp, splitOnce_append_left '?' pth q hpq]
  rw [hfq]
  simp only
  rw [if_pos hchk]

/-- Reassembling a well-shaped `urlparse` result with an http or https
scheme, nonempty netloc and no fragment, and parsing it again, recovers the
same components (`geturl` round-trip). -/
theorem pyUrlparse_roundtrip (po : PyOracles) (p : ParseResult)
    (hsch : p.scheme = "http".toList ∨ p.scheme = "https".toList)
    (hnl : p.netloc ≠ [])
    (hnd : ∀ c ∈ p.netloc, netlocDelim c = false)
    (hnc : ∀ c ∈ p.netloc, isUnsafeByte c = false)
    (hbr1 : ((p.netloc.contains '[' && !p.netloc.contains ']')
      || (p.netloc.contains ']' && !p.netloc.contains '[')) = false)
    (hbr2 : (p.netloc.contains '[' && p.netloc.contains ']'
      && !po.bracketOk (bracketedHost p.netloc)) = false)
    (hchk : checknetlocOk po p.netloc = true)
    (hph : '#' ∉ p.path) (hpq : '?' ∉ p.path)
    (hpc : ∀ c ∈ p.path, isUnsafeByte c = false)
    (hprh : '#' ∉ p.params) (hprq : '?' ∉ p.params)
    (hprc : ∀ c ∈ p.params, isUnsafeByte c = false)
    (hqh : '#' ∉ p.query) (hqc : ∀ c ∈ p.query, isUnsafeByte c = false)
    (hpp : (p.path = [] ∧ p.params = []) ∨ p.path.take 1 = ['/'])
    (hresplit : p.params ≠ [] →
      pySplitparams (p.path ++ ';' :: p.params) = (p.path, p.params))
    (hresplit0 : p.params = [] → ';' ∈ p.path →
      pySplitparams p.path = (p.path, []))
    (hfr : p.fragment = []) :
    pyUrlparse po [] (pyUrlunparse p) = .ok p := by
  obtain ⟨sch, nl, pth, prm, q, frg⟩ := p
  dsimp only at *
  subst hfr
  set u0 := if prm ≠ [] then pth ++ ';' :: prm else pth with hu0
  have hunparse : pyUrlunparse ⟨sch, nl, pth, prm, q, []⟩ =
      pyUrlunsplit ⟨sch, nl, u0, q, []⟩ := by
    unfold pyUrlunparse
    rw [hu0]
  have hu0h : '#' ∉ u0 := by
    rw [hu0]
    by_cases hprm : prm = []
    · simp only [hprm]
      simpa using hph
    · rw [if_pos (show prm ≠ [] from hprm)]
      intro hm
      simp only [List.mem_append, List.mem_cons] at hm
      rcases hm with hm | hm | hm
      · exact hph hm
      · exact absurd hm.symm (by decide)
      · exact hprh hm
  have hu0q : '?' ∉ u0 := by
    rw [hu0]
    by_cases hprm : prm = []
    · simp only [hprm]
      simpa using hpq
    · rw [if_pos (show prm ≠ [] from hprm)]
      intro hm
      simp only [List.mem_append, List.mem_cons] at hm
      rcases hm with hm | hm | hm
      · exact hpq hm
      · exact absurd hm.symm (by decide)
      · exact hprq hm
  have hu0c : ∀ c ∈ u0, isUnsafeByte c = false := by
    intro c hc
    rw [hu0] at hc
    by_cases hprm : prm = []
    · simp only [hprm] at hc
      simp only [ne_eq, not_true_eq_false, if_false] at hc
      exact hpc c hc
    · rw [if_pos (show prm ≠ [] from hprm)] at hc
      simp only [List.mem_append, List.mem_cons] at hc
      rcases hc with hc | hc | hc
      · exact hpc c hc
      · subst hc; decide
      · exact hprc c hc
  have hu0s : u0 = [] ∨ u0.take 1 = ['/'] := by
    rcases hpp with ⟨hp0, hpr0⟩ | hp1
    · left
      rw [hu0, hp0, hpr0]
      simp
    · right
      rw [hu0]
      cases pth with
      | nil => simp at hp1
      | cons a l =>
          simp only [List.take, List.cons.injEq] at hp1
          obtain ⟨rfl, -⟩ := hp1
          by_cases hprm : prm = [] <;> simp [hprm]
  have hsplit := pyUrlsplit_roundtrip po ⟨sch, nl, u0, q, []⟩ hsch hnl hnd hnc
    hbr1 hbr2 hchk hu0h hu0q hu0c hqh hqc hu0s rfl
  rw [hunparse]
  unfold pyUrlparse
  rw [hsplit]
  simp only
  by_cases hprm : prm = []
  · have hu0p : u0 = pth := by rw [hu0, hprm]; simp
    rw [hu0p]
    subst hprm
    by_cases hsemi : ';' ∈ pth
    · rw [if_pos]
      · rw [hresplit0 rfl hsemi]
      · simp only [Bool.and_eq_true]
        exact ⟨by rcases hsch with rfl | rfl <;> decide, by simpa using hsemi⟩
    · rw [if_neg]
      intro hcontra
      simp only [Bool.and_eq_true] at hcontra
      exact hsemi (by simpa using hcontra.2)
  · have hu0p : u0 = pth ++ ';' :: prm := by rw [hu0, if_pos (show prm ≠ [] from hprm)]
    rw [hu0p]
    rw [if_pos]
    · rw [hresplit hprm]
    · simp only [Bool.and_eq_true]
      exact ⟨by rcases hsch with rfl | rfl <;> decide, by simp⟩

theorem takeWhile_append_of_dropWhile_ne (p : Char → Bool) (l x : Chars)
    (h : l.dropWhile p ≠ []) :
    (l ++ x).takeWhile p = l.takeWhile p ∧
      (l ++ x).dropWhile p = l.dropWhile p ++ x := by
  induction l with
  | nil => simp at h
  | cons c cs ih =>
      by_cases hc : p c
      · rw [List.dropWhile_cons, if_pos hc] at h
        obtain ⟨h1, h2⟩ := ih h
        constructor
        · simp only [List.cons_append, List.takeWhile_cons, if_pos hc, h1]
        · simp only [List.cons_append, List.dropWhile_cons, if_pos hc, h2]
      · constructor
        · simp only [List.cons_append, List.takeWhile_cons, if_neg hc]
        · simp only [List.cons_append, List.dropWhile_cons, if_neg hc]

theorem takeWhile_append_of_dropWhile_eq (p : Char → Bool) (l x : Chars)
    (h : l.dropWhile p = []) :
    (l ++ x).takeWhile p = l ++ x.takeWhile p ∧
      (l ++ x).dropWhile p = x.dropWhile p := by
  induction l with
  | nil => simp
  | cons c cs ih =>
      by_cases hc : p c
      · rw [List.dropWhile_cons, if_pos hc] at h
        obtain ⟨h1, h2⟩ := ih h
        constructor
        · simp only [List.cons_append, List.takeWhile_cons, if_pos hc, h1]
        · simp only [List.cons_append, List.dropWhile_cons, if_pos hc, h2]
      · rw [List.dropWhile_cons, if_neg hc] at h
        simp at h
  
theorem splitScheme_append (ds w x : Chars) (hx : ':' ∉ x) :
    splitScheme ds (w ++ x) =
      ((splitScheme ds w).1, (splitScheme ds w).2 ++ x) := by
  unfold splitScheme
  cases hso : splitOnce ':' w with
  | none =>
      have hnw : ':' ∉ w := splitOnce_none_mem ':' w hso
      have : ':' ∉ w ++ x := by
        intro hm
        rcases List.mem_append.mp hm with hm | hm
        · exact hnw hm
        · exact hx hm
      rw [splitOnce_eq_none ':' (w ++ x) this]
  | some pr =>
      obtain ⟨pre, rest⟩ := pr
      rw [splitOnce_append_some ':' w x pre rest hso]
      simp only
      cases pre with
      | nil => simp
      | cons p ps =>
          dsimp only
          by_cases hguard : p.isAlpha && (p :: ps).all isSchemeChar
          · rw [if_pos hguard, if_pos hguard]
          · rw [if_neg hguard, if_neg hguard]

theorem fragQuerySplit_append_frag (u3 ff : Chars) :
    ∃ g, fragQuerySplit (u3 ++ '#' :: ff) =
      ((fragQuerySplit u3).1, (fragQuerySplit u3).2.1, g) := by
  unfold fragQuerySplit
  cases hfr : splitOnce '#' u3 with
  | some ab =>
      obtain ⟨u4, frag⟩ := ab
      rw [splitOnce_append_some '#' u3 ('#' :: ff) u4 frag hfr]
      exact ⟨frag ++ '#' :: ff, rfl⟩
  | none =>
      have hnh : '#' ∉ u3 := splitOnce_none_mem '#' u3 hfr
      rw [splitOnce_append_left '#' u3 ff hnh]
      exact ⟨ff, rfl⟩

theorem take_two_decomp (l : Chars) (h : l.take 2 = ['/', '/']) :
    ∃ r, l = '/' :: '/' :: r := by
  cases l with
  | nil => simp at h
  | cons a l1 =>
      cases l1 with
      | nil => simp at h
      | cons b l2 =>
          simp only [List.take, List.cons.injEq] at h
          obtain ⟨rfl, rfl, -⟩ := h
          exact ⟨l2, rfl⟩

/-- The intermediate computations of a successful `pyUrlsplit` run that
found a nonempty netloc. -/
theorem pyUrlsplit_run (po : PyOracles) (ds u : Chars) (s : SplitResult)
    (h : pyUrlsplit po ds u = .ok s) (hnl : s.netloc ≠ []) :
    ∃ r2, splitScheme (cleanScheme ds) (cleanUrl u) = (s.scheme, '/' :: '/' :: r2) ∧
      s.netloc = r2.takeWhile (fun c => !netlocDelim c) ∧
      (s.path, s.query, s.fragment) =
        fragQuerySplit (r2.dropWhile (fun c => !netlocDelim c)) := by
  unfold pyUrlsplit at h
  rcases hss : splitScheme (cleanScheme ds) (cleanUrl u) with ⟨sch, url2⟩
  simp only [hss] at h
  by_cases hnet : url2.take 2 = ['/', '/']
  · simp only [if_pos hnet] at h
    split at h
    · exact absurd h (by simp)
    · split at h
      · exact absurd h (by simp)
      · split at h
        next hchk =>
          simp only [Except.ok.injEq] at h
          subst h
          obtain ⟨r2, rfl⟩ := take_two_decomp url2 hnet
          exact ⟨r2, by simpa using hss, by rfl, by rfl⟩
        next => exact absurd h (by simp)
  · simp only [if_neg hnet] at h
    split at h
    · exact absurd h (by simp)
    · split at h
      · exact absurd h (by simp)
      · split at h
        next hchk =>
          simp only [Except.ok.injEq] at h
          subst h
          exact absurd rfl hnl
        next => exact absurd h (by simp)

/-- Appending a fragment suffix to a URL whose parse found a nonempty
netloc only extends the fragment component: every other component of the
split is unchanged. -/
theorem pyUrlsplit_append_frag (po : PyOracles) (u ff : Chars) (s : SplitResult)
    (h : pyUrlsplit po [] u = .ok s) (hnl : s.netloc ≠ [])
    (hffc : ∀ c ∈ ff, isUnsafeByte c = false)
    (hffcol : ':' ∉ ff) :
    ∃ g, pyUrlsplit po [] (u ++ '#' :: ff) =
      .ok ⟨s.scheme, s.netloc, s.path, s.query, g⟩ := by
  obtain ⟨r2, hss, hnetloc, hfq⟩ := pyUrlsplit_run po [] u s h hnl
  -- the cleaned appended string
  have hlne : lstripControl u ≠ [] := by
    intro hl
    have hcu : cleanUrl u = [] := by unfold cleanUrl; rw [hl]; rfl
    rw [hcu] at hss
    unfold splitScheme at hss
    rw [splitOnce_eq_none ':' [] (by simp)] at hss
    simp only [Prod.mk.injEq] at hss
    obtain ⟨-, h2⟩ := hss
    exact absurd h2.symm (by simp)
  have hclean : cleanUrl (u ++ '#' :: ff) = cleanUrl u ++ '#' :: ff := by
    unfold cleanUrl lstripControl
    cases hlu : u.dropWhile (fun c => c.toNat ≤ 32) with
    | nil => exact absurd (by unfold lstripControl; rw [hlu]) hlne
    | cons a l =>
        obtain ⟨-, hdw⟩ := takeWhile_append_of_dropWhile_ne
          (fun c => decide (c.toNat ≤ 32)) u ('#' :: ff) (by rw [hlu]; simp)
        rw [hdw, List.filter_append]
        have hself : ('#' :: ff).filter (fun c => !isUnsafeByte c) = '#' :: ff := by
          rw [List.filter_eq_self]
          intro c hc
          rcases List.mem_cons.mp hc with rfl | hc
          · decide
          · simp [hffc c hc]
        rw [hself, hlu]
  unfold pyUrlsplit
  dsimp only
  rw [hclean]
  rw [splitScheme_append (cleanScheme []) (cleanUrl u) ('#' :: ff)
    (by simpa using hffcol)]
  rw [hss]
  simp only
  rw [show ('/' :: '/' :: r2) ++ '#' :: ff = '/' :: '/' :: (r2 ++ '#' :: ff)
    from by simp]
  rw [show (('/' :: '/' :: (r2 ++ '#' :: ff)).take 2) = ['/', '/'] from rfl]
  rw [if_pos rfl]
  rw [show (('/' :: '/' :: (r2 ++ '#' :: ff)).drop 2) = r2 ++ '#' :: ff from rfl]
  -- netloc part is unchanged
  have hsplitfacts := pyUrlsplit_shape po [] u s h
  obtain ⟨hnd, -, hbr1, hbr2, hchk, -⟩ := hsplitfacts
  have htw2 : (r2 ++ '#' :: ff).takeWhile (fun c => !netlocDelim c) = s.netloc ∧
      (r2 ++ '#' :: ff).dropWhile (fun c => !netlocDelim c) =
        (r2.dropWhile (fun c => !netlocDelim c)) ++ '#' :: ff := by
    by_cases hdw : r2.dropWhile (fun c => !netlocDelim c) = []
    · have hr2 : r2.takeWhile (fun c => !netlocDelim c) = r2 := by
        conv_rhs => rw [← List.takeWhile_append_dropWhile (p := fun c => !netlocDelim c) (l := r2)]
        rw [hdw]
        simp
      obtain ⟨ht, hd⟩ := takeWhile_append_of_dropWhile_eq
        (fun c => !netlocDelim c) r2 ('#' :: ff) hdw
      constructor
      · rw [ht, hnetloc, hr2]
        simp [List.takeWhile_cons, netlocDelim]
      · rw [hd, hdw]
        simp [List.dropWhile_cons, netlocDelim]
    · obtain ⟨ht, hd⟩ := takeWhile_append_of_dropWhile_ne
        (fun c => !netlocDelim c) r2 ('#' :: ff) hdw
      exact ⟨by rw [ht, hnetloc], by rw [hd]⟩
  obtain ⟨htw2, hdw2⟩ := htw2
  rw [htw2, hdw2]
  rw [if_neg (by simpa using hbr1), if_neg (by simpa using hbr2)]
  obtain ⟨g, hfg⟩ := fragQuerySplit_append_frag
    (r2.dropWhile (fun c => !netlocDelim c)) ff
  rw [hfg]
  rw [if_pos hchk]
  refine ⟨g, ?_⟩
  have hp : s.path = (fragQuerySplit (r2.dropWhile (fun c => !netlocDelim c))).1 := by
    rw [← hfq]
  have hq : s.query = (fragQuerySplit (r2.dropWhile (fun c => !netlocDelim c))).2.1 := by
    rw [← hfq]
  rw [← hp, ← hq]

theorem pySplitparams_slash_head (t a b : Chars)
    (h : pySplitparams ('/' :: t) = (a, b)) : a.take 1 = ['/'] := by
  unfold pySplitparams at h
  cases hls : splitLastSlash ('/' :: t) with
  | none => exact absurd hls (splitLastSlash_ne_none _ (by simp))
  | some xy =>
      obtain ⟨x, y⟩ := xy
      simp only [hls] at h
      obtain ⟨hxy, -⟩ := splitLastSlash_sound _ x y hls
      cases hso : splitOnce ';' y with
      | some y12 =>
          obtain ⟨y1, y2⟩ := y12
          simp only [hso, Prod.mk.injEq] at h
          obtain ⟨h1, -⟩ := h
          subst h1
          cases x with
          | nil => rfl
          | cons c x' =>
              have : c = '/' := by
                have := congrArg (List.take 1) hxy
                simpa using this.symm
              subst this
              rfl
      | none =>
          simp only [hso, Prod.mk.injEq] at h
          obtain ⟨h1, -⟩ := h
          subst h1
          rfl

/-- Shape facts about a successful `pyUrlparse` result: exactly the
hypotheses needed to rebuild and re-split it. -/
theorem pyUrlparse_shape (po : PyOracles) (ds u : Chars) (p : ParseResult)
    (h : pyUrlparse po ds u = .ok p) :
    (∀ c ∈ p.netloc, netlocDelim c = false) ∧
    (∀ c ∈ p.netloc, isUnsafeByte c = false) ∧
    ((p.netloc.contains '[' && !p.netloc.contains ']')
      || (p.netloc.contains ']' && !p.netloc.contains '[')) = false ∧
    (p.netloc.contains '[' && p.netloc.contains ']'
      && !po.bracketOk (bracketedHost p.netloc)) = false ∧
    checknetlocOk po p.netloc = true ∧
    '#' ∉ p.path ∧ '?' ∉ p.path ∧ (∀ c ∈ p.path, isUnsafeByte c = false) ∧
    '#' ∉ p.params ∧ '?' ∉ p.params ∧
    (∀ c ∈ p.params, isUnsafeByte c = false) ∧
    '#' ∉ p.query ∧ (∀ c ∈ p.query, isUnsafeByte c = false) ∧
    (p.netloc ≠ [] → (p.path = [] ∧ p.params = []) ∨ p.path.take 1 = ['/']) ∧
    (p.params ≠ [] →
      pySplitparams (p.path ++ ';' :: p.params) = (p.path, p.params)) ∧
    (usesParamsSchemes.contains p.scheme = true → p.params = [] →
      ';' ∈ p.path → pySplitparams p.path = (p.path, [])) := by
  unfold pyUrlparse at h
  cases hsp : pyUrlsplit po ds u with
  | error e => rw [hsp] at h; exact absurd h (by simp)
  | ok s =>
      rw [hsp] at h
      dsimp only at h
      obtain ⟨hnd, hnc, hbr1, hbr2, hchk, hph, hpq, hpc, hqh, hqc, hslash⟩ :=
        pyUrlsplit_shape po ds u s hsp
      by_cases hcond : usesParamsSchemes.contains s.scheme && s.path.contains ';'
      · rw [if_pos hcond] at h
        rcases hpp : pySplitparams s.path with ⟨a, b⟩
        rw [hpp] at h
        simp only [Except.ok.injEq] at h
        subst h
        obtain ⟨hma, hmb⟩ := pySplitparams_mem s.path a b hpp
        refine ⟨hnd, hnc, hbr1, hbr2, hchk,
          fun hm => hph (hma _ hm), fun hm => hpq (hma _ hm),
          fun c hc => hpc c (hma c hc),
          fun hm => hph (hmb _ hm), fun hm => hpq (hmb _ hm),
          fun c hc => hpc c (hmb c hc),
          hqh, hqc, ?_, ?_, ?_⟩
        · intro hnl
          rcases hslash hnl with hp0 | hp1
          · left
            rw [hp0] at hpp
            unfold pySplitparams at hpp
            rw [splitLastSlash_eq_none [] (by simp),
              splitOnce_eq_none ';' [] (by simp)] at hpp
            simp only [Prod.mk.injEq] at hpp
            exact ⟨hpp.1.symm, hpp.2.symm⟩
          · right
            obtain ⟨t, ht⟩ : ∃ t, s.path = '/' :: t := by
              cases hsx : s.path with
              | nil => rw [hsx] at hp1; simp at hp1
              | cons c l =>
                  rw [hsx] at hp1
                  simp only [List.take, List.cons.injEq] at hp1
                  obtain ⟨rfl, -⟩ := hp1
                  exact ⟨l, rfl⟩
            rw [ht] at hpp
            exact pySplitparams_slash_head t a b hpp
        · intro hb
          obtain ⟨hrec⟩ := And.intro (pySplitparams_reconstruct s.path a b hpp hb) True.intro
          rw [hrec, hpp]
        · intro _ hb _
          subst hb
          exact pySplitparams_idem s.path a hpp
      · rw [if_neg hcond] at h
        simp only [Except.ok.injEq] at h
        subst h
        refine ⟨hnd, hnc, hbr1, hbr2, hchk, hph, hpq, hpc,
          by simp, by simp, by simp, hqh, hqc, ?_, by simp, ?_⟩
        · intro hnl
          rcases hslash hnl with hp0 | hp1
          · exact Or.inl ⟨hp0, rfl⟩
          · exact Or.inr hp1
        · intro hus _ hsem
          exfalso
          apply hcond
          simp only [Bool.and_eq_true]
          exact ⟨hus, by simpa using hsem⟩

/-- A URL accepted by `is_valid_url` parses successfully, with an http(s)
scheme and a nonempty netloc. -/
theorem is_valid_parse (po : PyOracles) (u : Chars)
    (h : is_valid_url po u = true) :
    ∃ p, pyUrlparse po [] u = .ok p ∧
      (p.scheme = "http".toList ∨ p.scheme = "https".toList) ∧
      p.netloc ≠ [] := by
  unfold is_valid_url at h
  cases hp : pyUrlparse po [] u with
  | error e => rw [hp] at h; exact absurd h (by simp)
  | ok p =>
      rw [hp] at h
      dsimp only at h
      refine ⟨p, rfl, ?_, ?_⟩
      · by_cases h1 : p.scheme = [] ∨ p.netloc = []
        · rw [if_pos h1] at h; exact absurd h (by simp)
        · rw [if_neg h1] at h
          by_cases h2 : ¬(p.scheme = "http".toList ∨ p.scheme = "https".toList)
          · rw [if_pos h2] at h; exact absurd h (by simp)
          · exact not_not.mp h2
      · by_cases h1 : p.scheme = [] ∨ p.netloc = []
        · rw [if_pos h1] at h; exact absurd h (by simp)
        · exact fun hn => h1 (Or.inr hn)

/-- Parsing `normalize_url u` recovers the parse of `u` with the fragment
dropped, whenever `u` parses with an http(s) scheme and nonempty netloc. -/
theorem normalize_url_parse (po : PyOracles) (u : Chars) (p : ParseResult)
    (hp : pyUrlparse po [] u = .ok p)
    (hsch : p.scheme = "http".toList ∨ p.scheme = "https".toList)
    (hnl : p.netloc ≠ []) :
    pyUrlparse po [] (normalize_url po u) = .ok { p with fragment := [] } := by
  obtain ⟨hnd, hnc, hbr1, hbr2, hchk, hph, hpq, hpc, hprh, hprq, hprc,
    hqh, hqc, hpp, hresplit, hresplit0⟩ := pyUrlparse_shape po [] u p hp
  have hn : normalize_url po u = pyUrlunparse { p with fragment := [] } := by
    unfold normalize_url; rw [hp]
  rw [hn]
  exact pyUrlparse_roundtrip po { p with fragment := [] } hsch hnl hnd hnc
    hbr1 hbr2 hchk hph hpq hpc hprh hprq hprc hqh hqc (hpp hnl) hresplit
    (fun hb hm =>
      hresplit0 (by rcases hsch with hs | hs <;> rw [hs] <;> decide) hb hm)
    rfl

/-- On URLs accepted by `is_valid_url`, `normalize_url` is idempotent. -/
theorem normalize_url_idem (po : PyOracles) (u : Chars)
    (h : is_valid_url po u = true) :
    normalize_url po (normalize_url po u) = normalize_url po u := by
  obtain ⟨p, hp, hsch, hnl⟩ := is_valid_parse po u h
  have h2 := normalize_url_parse po u p hp hsch hnl
  have hn : normalize_url po u = pyUrlunparse { p with fragment := [] } := by
    unfold normalize_url; rw [hp]
  conv_lhs => rw [normalize_url]
  rw [h2, hn]

/-- Appending a fragment onto a URL that parses with nonempty netloc only
changes the parsed fragment. -/
theorem pyUrlparse_append_frag (po : PyOracles) (u ff : Chars)
    (p : ParseResult) (hp : pyUrlparse po [] u = .ok p)
    (hnl : p.netloc ≠ [])
    (hffc : ∀ c ∈ ff, isUnsafeByte c = false) (hffcol : ':' ∉ ff) :
    ∃ g, pyUrlparse po [] (u ++ '#' :: ff) = .ok { p with fragment := g } := by
  unfold pyUrlparse at hp ⊢
  cases hsp : pyUrlsplit po [] u with
  | error e => rw [hsp] at hp; exact absurd hp (by simp)
  | ok s =>
      rw [hsp] at hp
      dsimp only at hp
      by_cases hc : (usesParamsSchemes.contains s.scheme
          && List.contains s.path ';') = true
      · rw [if_pos hc] at hp
        simp only [Except.ok.injEq] at hp
        subst hp
        obtain ⟨g, hg⟩ :=
          pyUrlsplit_append_frag po u ff s hsp (by exact hnl) hffc hffcol
        refine ⟨g, ?_⟩
        rw [hg]
        dsimp only
        rw [if_pos hc]
      · rw [if_neg hc] at hp
        simp only [Except.ok.injEq] at hp
        subst hp
        obtain ⟨g, hg⟩ :=
          pyUrlsplit_append_frag po u ff s hsp (by exact hnl) hffc hffcol
        refine ⟨g, ?_⟩
        rw [hg]
        dsimp only
        rw [if_neg hc]

/-- Appending a fragment does not change the normalized URL, for URLs that
parse with nonempty netloc. -/
theorem normalize_url_append_frag (po : PyOracles) (u ff : Chars)
    (p : ParseResult) (hp : pyUrlparse po [] u = .ok p)
    (hnl : p.netloc ≠ [])
    (hffc : ∀ c ∈ ff, isUnsafeByte c = false) (hffcol : ':' ∉ ff) :
    normalize_url po (u ++ '#' :: ff) = normalize_url po u := by
  obtain ⟨g, hg⟩ := pyUrlparse_append_frag po u ff p hp hnl hffc hffcol
  unfold normalize_url
  rw [hg, hp]

/-- C10: URL admission and normalization are total at the public interface:
`is_valid_url` always yields a boolean, with any internal parse exception
mapped to `false`, and `normalize_url` always yields a string, returning its
input unchanged when parsing raises and the fragment-stripped rebuild
otherwise — neither propagates an exception. -/
theorem C10_url_interface_total (po : PyOracles) (u : Chars) :
    match pyUrlparse po [] u with
    | .error _ => is_valid_url po u = false ∧ normalize_url po u = u
    | .ok p => normalize_url po u = pyUrlunparse { p with fragment := [] } := by
  cases hp : pyUrlparse po [] u with
  | error e =>
      refine ⟨?_, ?_⟩
      · unfold is_valid_url; rw [hp]
      · unfold normalize_url; rw [hp]
  | ok p =>
      unfold normalize_url; rw [hp]

/-- C7 (amended): on every URL admitted by `is_valid_url`, `normalize_url`
strips exactly the fragment (scheme, netloc, path, params and query of the
re-parse are those of the original), is idempotent, and absorbs an appended
fragment.  The admission hypothesis is necessary: see the counterexample. -/
theorem C7_normalize_fragment_only (po : PyOracles) (u : Chars)
    (h : is_valid_url po u = true) :
    ∃ p, pyUrlparse po [] u = .ok p ∧
      pyUrlparse po [] (normalize_url po u) = .ok { p with fragment := [] } ∧
      normalize_url po (normalize_url po u) = normalize_url po u ∧
      ∀ ff, (∀ c ∈ ff, isUnsafeByte c = false) → ':' ∉ ff →
        normalize_url po (u ++ '#' :: ff) = normalize_url po u := by
  obtain ⟨p, hp, hsch, hnl⟩ := is_valid_parse po u h
  exact ⟨p, hp, normalize_url_parse po u p hp hsch hnl,
    normalize_url_idem po u h,
    fun ff hffc hffcol => normalize_url_append_frag po u ff p hp hnl hffc hffcol⟩

/-- C7 witness: the amended statement instantiated at a concrete admitted
URL. -/
theorem C7_normalize_fragment_only_witness :
    is_valid_url ⟨fun _ => true, fun _ => true⟩ "http://site.test/a?q=1".toList = true ∧
    (∃ p, pyUrlparse ⟨fun _ => true, fun _ => true⟩ [] "http://site.test/a?q=1".toList = .ok p ∧
      pyUrlparse ⟨fun _ => true, fun _ => true⟩ []
          (normalize_url ⟨fun _ => true, fun _ => true⟩ "http://site.test/a?q=1".toList) =
        .ok { p with fragment := [] } ∧
      normalize_url ⟨fun _ => true, fun _ => true⟩
          (normalize_url ⟨fun _ => true, fun _ => true⟩ "http://site.test/a?q=1".toList) =
        normalize_url ⟨fun _ => true, fun _ => true⟩ "http://site.test/a?q=1".toList ∧
      ∀ ff, (∀ c ∈ ff, isUnsafeByte c = false) → ':' ∉ ff →
        normalize_url ⟨fun _ => true, fun _ => true⟩ ("http://site.test/a?q=1".toList ++ '#' :: ff) =
          normalize_url ⟨fun _ => true, fun _ => true⟩ "http://site.test/a?q=1".toList) :=
  ⟨by decide,
   C7_normalize_fragment_only ⟨fun _ => true, fun _ => true⟩
     "http://site.test/a?q=1".toList (by decide)⟩

/-- C7 counterexample: as stated over every URL the claim fails — on
`"////"` normalization is not idempotent, and on `"http://[a"` (whose parse
raises) appending `"#frag"` changes the normalized form. -/
theorem C7_counterexample :
    normalize_url ⟨fun _ => true, fun _ => true⟩
        (normalize_url ⟨fun _ => true, fun _ => true⟩ "////".toList) ≠
      normalize_url ⟨fun _ => true, fun _ => true⟩ "////".toList ∧
    normalize_url ⟨fun _ => true, fun _ => true⟩
        ("http://[a".toList ++ "#frag".toList) ≠
      normalize_url ⟨fun _ => true, fun _ => true⟩ "http://[a".toList := by
  decide

/-- C5 (amended): the fetcher performs at most 3 attempts with back-off
sleeps `1 * (attempt + 1)` between failed attempts, and when every attempt
fails (throws, or returns markup of length at most 100 — not only strictly
shorter than 100) it returns the empty string with the two recorded sleeps;
the crawl loop then records exactly one fetch error, leaves `visited`,
`completed` and `progress` untouched by the step, and continues with the
remaining frontier. -/
theorem C5_fetch_soft_failure (attempts : Nat → Except Unit Chars)
    (env : CrawlEnv) (cfg : CrawlConfig) (fuel : Nat) (st : CrawlState)
    (url : Chars) (rest : List Chars)
    (hfail : ∀ k, fetchAttemptResult attempts k = none)
    (hq : st.queue = url :: rest)
    (hlen : st.visited.length < cfg.max_pages)
    (hsv : should_visit env cfg st.visited (normalize_url env.po url) = true)
    (hfe : env.fetch (normalize_url env.po url) = []) :
    fetch_rendered_page attempts = ([], [1 * (0 + 1), 1 * (1 + 1)]) ∧
    crawlLoop env cfg (fuel + 1) st =
      crawlLoop env cfg fuel
        { st with queue := rest,
                  currentUrl := some (normalize_url env.po url),
                  progress := st.visited.length,
                  errors := st.errors ++ [fetchErrMsg (normalize_url env.po url)] } := by
  constructor
  · simp [fetch_rendered_page, fetchLoop, hfail]
  · conv_lhs => rw [crawlLoop]
    rw [hq]
    dsimp only
    rw [if_pos hlen, if_pos hsv, hfe]
    rw [if_pos rfl]

/-- C5 witness: the soft-failure step at a fully concrete crawler state. -/
theorem C5_fetch_soft_failure_witness :
    (∀ k, fetchAttemptResult (fun _ => .error ()) k = none) ∧
    (let env : CrawlEnv :=
      ⟨⟨fun _ => true, fun _ => true⟩, fun _ => .error (), id, id, fun _ => []⟩
     let cfg : CrawlConfig := ⟨"http://s.test/".toList, true, 3, "s.test".toList⟩
     let st := initialCrawlState cfg
     st.queue = "http://s.test/".toList :: [] ∧
     st.visited.length < cfg.max_pages ∧
     should_visit env cfg st.visited
       (normalize_url env.po "http://s.test/".toList) = true ∧
     env.fetch (normalize_url env.po "http://s.test/".toList) = [] ∧
     (fetch_rendered_page (fun _ => .error ()) = ([], [1 * (0 + 1), 1 * (1 + 1)]) ∧
      crawlLoop env cfg (0 + 1) st =
        crawlLoop env cfg 0
          { st with queue := [],
                    currentUrl :=
                      some (normalize_url env.po "http://s.test/".toList),
                    progress := st.visited.length,
                    errors :=
                      st.errors ++
                        [fetchErrMsg
                          (normalize_url env.po "http://s.test/".toList)] })) :=
  ⟨fun k => rfl,
   rfl, by decide, by decide, rfl,
   C5_fetch_soft_failure (fun _ => .error ()) _ _ 0 _ _ []
     (fun k => rfl) rfl (by decide) (by decide) rfl⟩

/-- C5 counterexample: an attempt returning markup of length exactly 100 is
not "shorter than 100 characters", yet it still counts as failed — all three
attempts are consumed and the fetch returns the empty string. -/
theorem C5_counterexample :
    ¬ (List.replicate 100 'a').length < 100 ∧
    fetch_rendered_page (fun _ => .ok (List.replicate 100 'a')) = ([], [1, 2]) := by
  constructor
  · decide
  · simp [fetch_rendered_page, fetchLoop, fetchAttemptResult]

/-- C3 (amended): extraction is total — `clean_content` always returns a
record, and on a parser fault it returns the degraded record with a generic
title and empty/zero defaults for description, word count, headings, image
alts and link lists; but the fields robots, keywords, canonical_url and
language are absent from the degraded record, not defaulted. -/
theorem C3_extraction_fallback (env : CrawlEnv) (html url : Chars)
    (he : env.parseHtml html = .error ()) :
    clean_content env html url = ⟨fallbackMetadata, [], html, []⟩ ∧
    mdStr fallbackMetadata "title".toList = "Error processing page".toList ∧
    getKey "description".toList fallbackMetadata = some (.s []) ∧
    getKey "word_count".toList fallbackMetadata = some (.n 0) ∧
    getKey "h1_tags".toList fallbackMetadata = some (.l []) ∧
    getKey "h2_tags".toList fallbackMetadata = some (.l []) ∧
    getKey "h3_tags".toList fallbackMetadata = some (.l []) ∧
    getKey "image_alt_texts".toList fallbackMetadata = some (.l []) ∧
    getKey "internal_links".toList fallbackMetadata = some (.l []) ∧
    getKey "external_links".toList fallbackMetadata = some (.l []) ∧
    getKey "robots".toList fallbackMetadata = none ∧
    getKey "keywords".toList fallbackMetadata = none ∧
    getKey "canonical_url".toList fallbackMetadata = none ∧
    getKey "language".toList fallbackMetadata = none := by
  refine ⟨?_, by decide, by decide, by decide, by decide, by decide, by decide,
    by decide, by decide, by decide, by decide, by decide, by decide, by decide⟩
  unfold clean_content
  rw [he]

/-- C3 witness: a concrete faulting parser environment. -/
theorem C3_extraction_fallback_witness :
    (let env : CrawlEnv :=
      ⟨⟨fun _ => true, fun _ => true⟩, fun _ => .error (), id, id, fun _ => []⟩
     env.parseHtml "<p>".toList = .error () ∧
     (clean_content env "<p>".toList "http://s.test/".toList =
        ⟨fallbackMetadata, [], "<p>".toList, []⟩ ∧
      mdStr fallbackMetadata "title".toList = "Error processing page".toList ∧
      getKey "description".toList fallbackMetadata = some (.s []) ∧
      getKey "word_count".toList fallbackMetadata = some (.n 0) ∧
      getKey "h1_tags".toList fallbackMetadata = some (.l []) ∧
      getKey "h2_tags".toList fallbackMetadata = some (.l []) ∧
      getKey "h3_tags".toList fallbackMetadata = some (.l []) ∧
      getKey "image_alt_texts".toList fallbackMetadata = some (.l []) ∧
      getKey "internal_links".toList fallbackMetadata = some (.l []) ∧
      getKey "external_links".toList fallbackMetadata = some (.l []) ∧
      getKey "robots".toList fallbackMetadata = none ∧
      getKey "keywords".toList fallbackMetadata = none ∧
      getKey "canonical_url".toList fallbackMetadata = none ∧
      getKey "language".toList fallbackMetadata = none)) :=
  ⟨rfl, C3_extraction_fallback _ "<p>".toList "http://s.test/".toList rfl⟩

/-- C3 counterexample: in the degraded record the metadata keys robots,
keywords, canonical_url and language are missing entirely, contradicting
"every Metadata field is present with an empty/zero default — no field is
absent"; the healthy path's initial mapping does carry all four. -/
theorem C3_counterexample :
    (let env : CrawlEnv :=
      ⟨⟨fun _ => true, fun _ => true⟩, fun _ => .error (), id, id, fun _ => []⟩
     (clean_content env "<p>".toList "http://s.test/".toList).metadata =
       fallbackMetadata) ∧
    getKey "robots".toList fallbackMetadata = none ∧
    getKey "keywords".toList fallbackMetadata = none ∧
    getKey "canonical_url".toList fallbackMetadata = none ∧
    getKey "language".toList fallbackMetadata = none ∧
    getKey "robots".toList initialMetadata = some (.s []) ∧
    getKey "keywords".toList initialMetadata = some (.s []) ∧
    getKey "canonical_url".toList initialMetadata = some (.s []) ∧
    getKey "language".toList initialMetadata = some (.s []) := by
  decide

/-- C1: the claim's generator does not exist as a callable function — the
body at `src/app.py` lines 567-655 executes at the tail of
`create_schema_loader_script`, where no `page_data` is in scope, so the
block always raises (`NameError`, re-raised while the handler formats its
message) instead of producing the fallback document; only the intended,
never-reachable scoping (`page_data` bound) yields the fallback on an
inference fault. -/
theorem C1_generator_misscoped (genv : GenEnv) (now : Chars)
    (page : Chars × PageDict) :
    schema_loader_tail genv now none = .error () ∧
    (genTryBody genv page = .error () →
      schema_loader_tail genv now (some page) =
        .ok (generate_fallback now page)) := by
  refine ⟨rfl, fun hfault => ?_⟩
  unfold schema_loader_tail generate_json_ld
  dsimp only
  rw [hfault]

/-- C1 witness: concrete inference fault, concrete page. -/
theorem C1_generator_misscoped_witness :
    (let genv : GenEnv := ⟨fun _ => .error (), fun _ => .error ()⟩
     let page : Chars × PageDict :=
       ("http://s.test/".toList, ⟨initialMetadata, [], [], []⟩)
     schema_loader_tail genv "2024-01-01".toList none = .error () ∧
     (genTryBody genv page = .error () →
       schema_loader_tail genv "2024-01-01".toList (some page) =
         .ok (generate_fallback "2024-01-01".toList page))) :=
  C1_generator_misscoped ⟨fun _ => .error (), fun _ => .error ()⟩
    "2024-01-01".toList ("http://s.test/".toList, ⟨initialMetadata, [], [], []⟩)

/-- C2 (amended): per-page packaging faults — every page, since the
`generate_json_ld` call raises `NameError` — are caught and skipped with
nothing appended to the job's error list, while a fault escaping the later
steps is fatal.  One always escapes: the loader-script step raises
`NameError` on every run, so the packaging call never returns, every job
that reaches it ends Failed with exactly that escaping diagnostic appended
to its preserved error list, and no job is ever marked Completed. -/
theorem C2_packaging_always_fatal (penv : PackEnv) (jobId domain : Chars)
    (st : CrawlState) :
    ∃ e,
      (create_website_folder_structure penv jobId domain st.results).outcome =
        .error e ∧
      crawl_finalize penv jobId domain st =
        ⟨.failed, st.progress, st.completed,
          st.errors ++ [criticalErrMsg jobId e], none, none⟩ := by
  by_cases hif : penv.indexFault = true
  · refine ⟨"writing index.json failed".toList, ?_, ?_⟩
    · unfold create_website_folder_structure
      dsimp only
      rw [if_pos hif]
    · unfold crawl_finalize create_website_folder_structure
      dsimp only
      rw [if_pos hif]
  · refine ⟨loaderTailErrMsg, ?_, ?_⟩
    · unfold create_website_folder_structure
      dsimp only
      rw [if_neg hif]
      rfl
    · unfold crawl_finalize create_website_folder_structure
      dsimp only
      rw [if_neg hif]
      rfl

/-- C2 counterexample: a real one-page run.  The page's own packaging fault
(the `NameError` from the `generate_json_ld` call) is swallowed — the page
is skipped and the job's error list gains no per-page entry, only the
loader-tail diagnostic — and the job ends Failed.  So a packaging-stage
failure occurs whose fault is never appended, contradicting the claim's
"with that fault appended to its error list". -/
theorem C2_counterexample :
    (let penv : PackEnv :=
      ⟨⟨fun _ => true, fun _ => true⟩,
       ⟨fun _ => .error (), fun _ => .error ()⟩,
       "2024-01-01".toList, fun _ => false, false, false, false⟩
     let page : Chars × PageDict :=
       ("http://s.test/".toList, ⟨initialMetadata, [], "<p>".toList, []⟩)
     let st : CrawlState :=
       ⟨[], ["http://s.test/".toList], [], [], [page], none, 1⟩
     let job := crawl_finalize penv "j1".toList "s.test".toList st
     packPage penv [] page = none ∧
     job.status = .failed ∧
     job.status ≠ .completed ∧
     job.errors = [criticalErrMsg "j1".toList loaderTailErrMsg]) := by
  decide

theorem packPages_empty (env : PackEnv) (pages : List (Chars × PageDict)) :
    packPages env pages = ([], []) := by
  unfold packPages
  induction pages with
  | nil => rfl
  | cons p ps ih =>
      rw [List.foldl_cons]
      exact ih

/-- C9: on every run of the packager the page list the loader script embeds
and the page list in the index manifest are byte-identical — both artifacts
are written with the same `page_files`, which is always empty because the
per-page loop skips every record (`NameError` at line 365), and the
`indent=4`/`ensure_ascii=True` and `indent=2`/`ensure_ascii=False`
serializations of the empty list are the same two bytes. -/
theorem C9_page_lists_byte_identical (penv : PackEnv) (jobId domain : Chars)
    (pages : List (Chars × PageDict)) :
    (create_website_folder_structure penv jobId domain pages).pageFiles = [] ∧
    (∀ emb,
      (create_website_folder_structure penv jobId
          domain pages).loaderEmbeddedList = some emb →
        emb = pyDumps 4 true 0 (pageFilesJson [])) ∧
    (∀ idx,
      (create_website_folder_structure penv jobId domain pages).indexJson =
        some idx →
      jsonObjGet "pages".toList
          (match idx with | .obj ms => ms | _ => []) =
        some (pageFilesJson [])) ∧
    pyDumps 4 true 0 (pageFilesJson []) =
      pyDumps 2 false 1 (pageFilesJson []) := by
  have hbytes : pyDumps 4 true 0 (pageFilesJson []) =
      pyDumps 2 false 1 (pageFilesJson []) := by
    simp only [pageFilesJson, List.map_nil, pyDumps]
  unfold create_website_folder_structure
  dsimp only
  rw [packPages_empty penv pages]
  by_cases hif : penv.indexFault = true
  · rw [if_pos hif]
    refine ⟨rfl, ?_, ?_, hbytes⟩
    · intro emb h
      exact absurd h (by simp)
    · intro idx h
      exact absurd h (by simp)
  · rw [if_neg hif]
    simp only [create_schema_loader_script, schema_loader_tail]
    refine ⟨trivial, ?_, ?_, hbytes⟩
    · intro emb h
      simp only [Option.some.injEq] at h
      rw [← h]
      rfl
    · intro idx h
      simp only [Option.some.injEq] at h
      rw [← h]
      simp only [index_data]
      simp only [jsonObjGet]
      simp

theorem isSuffixOf_append_self (l x : Chars) : l.isSuffixOf (x ++ l) = true := by
  unfold List.isSuffixOf
  rw [List.reverse_append]
  exact List.isPrefixOf_iff_prefix.mpr (List.prefix_append _ _)

/-- C8: the filename logic of `src/app.py` lines 367-383 matches the claim
— the root (or empty) path maps to `homepage.json`; every derived name is
`.json`-suffixed with separators and unsafe characters replaced; a fresh
name is kept; a colliding name gets the numeric suffix `_1` before the
extension — but that logic is dead code: the per-page body raises
`NameError` at line 365 before reaching it, so every record is skipped
(first conjunct) and no per-page file is ever written, let alone two. -/
theorem C8_filenames (env : PackEnv) (existing0 : List Chars)
    (page : Chars × PageDict) (urlPath : Chars) :
    packPage env existing0 page = none ∧
    (page_filename ['/'] = "homepage.json".toList ∧
     page_filename [] = "homepage.json".toList) ∧
    ".json".toList.isSuffixOf (page_filename urlPath) = true ∧
    (∀ c ∈ page_filename urlPath, isFilenameSafe c = true) ∧
    (∀ existing f, existing.contains f = false →
      ensure_unique existing f = f) ∧
    (∀ existing nm ext, existing.contains (nm ++ '.' :: ext) = true →
      splitLastChar '.' (nm ++ '.' :: ext) = some (nm, ext) →
      existing.contains (nm ++ '_' :: '1' :: '.' :: ext) = false →
      ensure_unique existing (nm ++ '.' :: ext) =
        nm ++ '_' :: '1' :: '.' :: ext) := by
  refine ⟨rfl, ⟨by decide, by decide⟩, ?_, ?_, ?_, ?_⟩
  · unfold page_filename
    split
    · decide
    · dsimp only
      split
      · next hsuf => exact hsuf
      · exact isSuffixOf_append_self _ _
  · unfold page_filename
    split
    · exact fun c hc => (by decide :
        ∀ c ∈ "homepage.json".toList, isFilenameSafe c = true) c hc
    · dsimp only
      have hf : ∀ c ∈ subNonWord ((pyStripSlashes urlPath).map
          (fun c => if c = '/' then '_' else c)), isFilenameSafe c = true := by
        intro c hc
        unfold subNonWord at hc
        obtain ⟨a, -, rfl⟩ := List.mem_map.mp hc
        by_cases ha : isFilenameSafe a
        · rw [if_pos ha]; exact ha
        · rw [if_neg ha]; decide
      split
      · exact hf
      · intro c hc
        rcases List.mem_append.mp hc with hcl | hcr
        · exact hf c hcl
        · exact (by decide :
            ∀ c ∈ ".json".toList, isFilenameSafe c = true) c hcr
  · intro existing f h
    unfold ensure_unique
    rw [if_neg (by rw [h]; exact Bool.false_ne_true)]
  · intro existing nm ext h1 h2 h3
    unfold ensure_unique
    rw [if_pos h1]
    simp only [h2]
    simp only [collisionLoop,
      (by decide : (Nat.repr 1).toList = ['1']), List.cons_append,
      List.nil_append, h3]
    simp
    intro hmem
    exact absurd hmem (by simpa using h3)

/-- C6 (amended): the frontier is FIFO — links are appended at the tail and
dequeued from the head — so in the scenario of a seed page with 5 distinct
admissible internal links and a page budget of 3, the crawl visits the seed
plus the first two links *in the order the Python set of extracted links
iterates*; when that set iteration happens to preserve insertion (discovery)
order, these are the first two links in discovery order.  Discovery order
itself is not guaranteed: see the counterexample. -/
theorem C6_fifo_under_insertion_order :
    (let env : CrawlEnv :=
      ⟨⟨fun _ => true, fun _ => true⟩,
       fun h => .ok ⟨none, none, none, none, none, none, [], [], [], [],
         (if h = "http://s.test/".toList then
            ["/p1".toList, "/p2".toList, "/p3".toList, "/p4".toList,
             "/p5".toList]
          else []), []⟩,
       id, id, fun u => u⟩
     let cfg : CrawlConfig :=
       ⟨"http://s.test/".toList, true, 3, "s.test".toList⟩
     (crawlLoop env cfg 4 (initialCrawlState cfg)).completed.map
         PageSummary.url =
       ["http://s.test/".toList, "http://s.test/p1".toList,
        "http://s.test/p2".toList]) := by
  decide

/-- C6 counterexample: the same seed page and budget, with the set of
extracted links iterating in reverse insertion order (Python leaves set
iteration order unspecified): the crawl visits the seed plus the *last* two
links, not the first two in discovery (document) order. -/
theorem C6_counterexample :
    (let env : CrawlEnv :=
      ⟨⟨fun _ => true, fun _ => true⟩,
       fun h => .ok ⟨none, none, none, none, none, none, [], [], [], [],
         (if h = "http://s.test/".toList then
            ["/p1".toList, "/p2".toList, "/p3".toList, "/p4".toList,
             "/p5".toList]
          else []), []⟩,
       id, List.reverse, fun u => u⟩
     let cfg : CrawlConfig :=
       ⟨"http://s.test/".toList, true, 3, "s.test".toList⟩
     (crawlLoop env cfg 4 (initialCrawlState cfg)).completed.map
         PageSummary.url ≠
       ["http://s.test/".toList, "http://s.test/p1".toList,
        "http://s.test/p2".toList] ∧
     (crawlLoop env cfg 4 (initialCrawlState cfg)).completed.map
         PageSummary.url =
       ["http://s.test/".toList, "http://s.test/p5".toList,
        "http://s.test/p4".toList]) := by
  decide

theorem mem_setInsert (acc : List Chars) (x y : Chars)
    (h : y ∈ setInsert acc x) : y ∈ acc ∨ y = x := by
  unfold setInsert at h
  split at h
  · exact Or.inl h
  · rcases List.mem_append.mp h with hl | hr
    · exact Or.inl hl
    · exact Or.inr (List.mem_singleton.mp hr)

theorem setInsert_of_not_mem (acc : List Chars) (x : Chars)
    (h : acc.contains x = false) : setInsert acc x = acc ++ [x] := by
  unfold setInsert
  rw [if_neg (by rw [h]; exact Bool.false_ne_true)]

theorem extract_links_valid (env : CrawlEnv) (html baseUrl : Chars)
    (links : List Chars)
    (hso : ∀ xs x, x ∈ env.setOrder xs → x ∈ xs)
    (h : extract_links env html baseUrl = .ok links) :
    ∀ l ∈ links, is_valid_url env.po l = true := by
  unfold extract_links at h
  cases hp : env.parseHtml html with
  | error e => rw [hp] at h; exact absurd h (by simp)
  | ok soup =>
      rw [hp] at h
      simp only [Except.ok.injEq] at h
      subst h
      intro l hl
      have hl2 := hso _ _ hl
      clear hl hso hp
      generalize hhr : soup.anchorHrefs = hrefs at hl2
      clear hhr
      generalize hacc : ([] : List Chars) = acc at hl2
      have haccP : ∀ x ∈ acc, is_valid_url env.po x = true := by
        rw [← hacc]; intro x hx; exact absurd hx (by simp)
      clear hacc
      induction hrefs generalizing acc with
      | nil => exact haccP l hl2
      | cons h0 hs ih =>
          simp only [List.foldl_cons] at hl2
          apply ih
          · exact hl2
          intro x hx
          by_cases he : pyStripWs h0 = []
          · rw [if_pos he] at hx; exact haccP x hx
          · rw [if_neg he] at hx
            cases hj : pyUrljoin env.po baseUrl (pyStripWs h0) with
            | error e => rw [hj] at hx; exact haccP x hx
            | ok full =>
                rw [hj] at hx
                dsimp only at hx
                by_cases hv :
                    is_valid_url env.po (normalize_url env.po full) = true
                · rw [if_pos hv] at hx
                  rcases mem_setInsert _ _ _ hx with hxa | hxe
                  · exact haccP x hxa
                  · rw [hxe]; exact hv
                · rw [if_neg hv] at hx; exact haccP x hx

theorem should_visit_true (env : CrawlEnv) (cfg : CrawlConfig)
    (visited : List Chars) (url : Chars)
    (h : should_visit env cfg visited url = true) :
    visited.contains (normalize_url env.po url) = false ∧
    is_valid_url env.po (normalize_url env.po url) = true := by
  unfold should_visit at h
  dsimp only at h
  by_cases hb : visited.contains (normalize_url env.po url) = true
  · rw [if_pos hb] at h
    exact absurd h Bool.false_ne_true
  · rw [if_neg hb] at h
    by_cases hv : (!is_valid_url env.po (normalize_url env.po url)) = true
    · rw [if_pos hv] at h
      exact absurd h Bool.false_ne_true
    · have hb2 : visited.contains (normalize_url env.po url) = false := by
        cases hcb : visited.contains (normalize_url env.po url) with
        | true => exact absurd hcb hb
        | false => rfl
      have hv2 : is_valid_url env.po (normalize_url env.po url) = true := by
        cases hvb : is_valid_url env.po (normalize_url env.po url) with
        | true => rfl
        | false => exact absurd (by rw [hvb]; rfl) hv
      exact ⟨hb2, hv2⟩

theorem enqueueLinks_mem (env : CrawlEnv) (cfg : CrawlConfig)
    (visited : List Chars) (links : List Chars) (queue : List Chars) (x : Chars)
    (hx : x ∈ enqueueLinks env cfg visited queue links) :
    x ∈ queue ∨ x ∈ links := by
  unfold enqueueLinks at hx
  induction links generalizing queue with
  | nil => exact Or.inl hx
  | cons l ls ih =>
      simp only [List.foldl_cons] at hx
      by_cases hc : (should_visit env cfg visited l &&
          !(queue.contains l)) = true
      · rw [if_pos hc] at hx
        rcases ih _ hx with hq | hl
        · rcases List.mem_append.mp hq with h1 | h2
          · exact Or.inl h1
          · exact Or.inr (by
              rw [List.mem_singleton.mp h2]
              exact List.mem_cons_self l ls)
        · exact Or.inr (List.mem_cons_of_mem l hl)
      · rw [if_neg hc] at hx
        rcases ih _ hx with hq | hl
        · exact Or.inl hq
        · exact Or.inr (List.mem_cons_of_mem l hl)

/-- The crawl-loop invariant: pending URLs are all admissible, the completed
summaries mirror the visited set one-to-one, the visited set is
duplicate-free, within budget, and holds only normalization-fixed URLs. -/
def crawlInv (env : CrawlEnv) (cfg : CrawlConfig) (st : CrawlState) : Prop :=
  (∀ u ∈ st.queue, is_valid_url env.po u = true) ∧
  st.completed.map PageSummary.url = st.visited ∧
  st.visited.Nodup ∧
  st.visited.length ≤ cfg.max_pages ∧
  (∀ u ∈ st.visited, normalize_url env.po u = u)

theorem crawlLoop_inv (env : CrawlEnv) (cfg : CrawlConfig)
    (hso : ∀ xs x, x ∈ env.setOrder xs → x ∈ xs) :
    ∀ fuel st, crawlInv env cfg st →
      crawlInv env cfg (crawlLoop env cfg fuel st) := by
  intro fuel
  induction fuel with
  | zero => intro st h; exact h
  | succ n ih =>
      intro st h
      obtain ⟨hq, hcv, hnd, hlen, hfix⟩ := h
      simp only [crawlLoop]
      rcases hqe : st.queue with _ | ⟨url, rest⟩
      · exact ⟨hq, hcv, hnd, hlen, hfix⟩
      · dsimp only
        by_cases hlt : st.visited.length < cfg.max_pages
        · rw [if_pos hlt]
          have hrest : ∀ u ∈ rest, is_valid_url env.po u = true :=
            fun u hu => hq u (by rw [hqe]; exact List.mem_cons_of_mem _ hu)
          by_cases hsv :
              should_visit env cfg st.visited (normalize_url env.po url) = true
          · rw [if_pos hsv]
            have hvurl : is_valid_url env.po url = true :=
              hq url (by rw [hqe]; exact List.mem_cons_self _ _)
            have hidem := normalize_url_idem env.po url hvurl
            obtain ⟨hcon, hval⟩ :=
              should_visit_true env cfg st.visited (normalize_url env.po url) hsv
            rw [hidem] at hcon hval
            have hset := setInsert_of_not_mem st.visited
              (normalize_url env.po url) hcon
            have hnotmem : normalize_url env.po url ∉ st.visited := by
              intro hm
              have h2 : st.visited.contains (normalize_url env.po url) = true :=
                List.elem_eq_true_of_mem hm
              rw [hcon] at h2
              exact Bool.false_ne_true h2
            by_cases hf : env.fetch (normalize_url env.po url) = []
            · rw [if_pos hf]
              exact ih _ ⟨hrest, hcv, hnd, hlen, hfix⟩
            · rw [if_neg hf]
              have hcv2 : (st.completed ++
                  [mkSummary (normalize_url env.po url)
                    (clean_content env (env.fetch (normalize_url env.po url))
                      (normalize_url env.po url))]).map PageSummary.url =
                  setInsert st.visited (normalize_url env.po url) := by
                rw [hset, List.map_append, hcv]
                rfl
              have hnd2 : (setInsert st.visited
                  (normalize_url env.po url)).Nodup := by
                rw [hset]
                exact List.Nodup.append hnd (List.nodup_singleton _)
                  (fun a ha hb =>
                    hnotmem (List.mem_singleton.mp hb ▸ ha))
              have hlen2 : (setInsert st.visited
                  (normalize_url env.po url)).length ≤ cfg.max_pages := by
                rw [hset, List.length_append]
                simpa using hlt
              have hfix2 : ∀ u ∈ setInsert st.visited
                  (normalize_url env.po url), normalize_url env.po u = u := by
                intro u hu
                rcases mem_setInsert _ _ _ hu with hua | hue
                · exact hfix u hua
                · rw [hue]; exact hidem
              cases hel : extract_links env
                  (env.fetch (normalize_url env.po url))
                  (normalize_url env.po url) with
              | error e =>
                  exact ih _ ⟨hrest, hcv2, hnd2, hlen2, hfix2⟩
              | ok links =>
                  refine ih _ ⟨?_, hcv2, hnd2, hlen2, hfix2⟩
                  intro u hu
                  rcases enqueueLinks_mem env cfg _ links rest u hu with hur | hul
                  · exact hrest u hur
                  · exact extract_links_valid env _ _ links hso hel u hul
          · rw [if_neg hsv]
            exact ih _ ⟨hrest, hcv, hnd, hlen, hfix⟩
        · rw [if_neg hlt]
          exact ⟨hq, hcv, hnd, hlen, hfix⟩

/-- C4: in every reachable crawl-loop state of a job whose seed passed
`is_valid_url` (the submission endpoint enforces this), the completed-page
summaries never outnumber the page budget and no two of them share a
normalized URL.  The set-iteration hypothesis states only that iterating a
Python set yields elements of that set. -/
theorem C4_budget_and_dedup (env : CrawlEnv) (cfg : CrawlConfig) (fuel : Nat)
    (hso : ∀ xs x, x ∈ env.setOrder xs → x ∈ xs)
    (hseed : is_valid_url env.po cfg.start_url = true) :
    (crawlLoop env cfg fuel (initialCrawlState cfg)).completed.length ≤
      cfg.max_pages ∧
    ((crawlLoop env cfg fuel (initialCrawlState cfg)).completed.map
      (fun s => normalize_url env.po s.url)).Nodup := by
  have hinit : crawlInv env cfg (initialCrawlState cfg) := by
    refine ⟨?_, rfl, List.nodup_nil, Nat.zero_le _, ?_⟩
    · intro u hu
      rw [List.mem_singleton.mp hu]
      exact hseed
    · intro u hu
      exact absurd hu (List.not_mem_nil u)
  obtain ⟨hq, hcv, hnd, hlen, hfix⟩ :=
    crawlLoop_inv env cfg hso fuel (initialCrawlState cfg) hinit
  constructor
  · calc (crawlLoop env cfg fuel (initialCrawlState cfg)).completed.length
        = ((crawlLoop env cfg fuel (initialCrawlState cfg)).completed.map
            PageSummary.url).length := (List.length_map _ _).symm
      _ = (crawlLoop env cfg fuel (initialCrawlState cfg)).visited.length := by
            rw [hcv]
      _ ≤ cfg.max_pages := hlen
  · have hmapeq : (crawlLoop env cfg fuel (initialCrawlState cfg)).completed.map
        (fun s => normalize_url env.po s.url) =
        (crawlLoop env cfg fuel (initialCrawlState cfg)).completed.map
          PageSummary.url := by
      refine List.map_congr_left ?_
      intro s hs
      apply hfix
      rw [← hcv]
      exact List.mem_map_of_mem PageSummary.url hs
    rw [hmapeq, hcv]
    exact hnd

/-- C4 witness: the invariant conclusion at a concrete job (identity set
order, seed admitted, budget 2). -/
theorem C4_budget_and_dedup_witness :
    (∀ xs x, x ∈ id (xs : List Chars) → x ∈ xs) ∧
    (let env : CrawlEnv :=
      ⟨⟨fun _ => true, fun _ => true⟩,
       fun h => .ok ⟨none, none, none, none, none, none, [], [], [], [],
         (if h = "http://w.test/".toList then
            ["/a".toList, "/b".toList, "/c".toList]
          else []), []⟩,
       id, id, fun u => u⟩
     let cfg : CrawlConfig :=
       ⟨"http://w.test/".toList, true, 2, "w.test".toList⟩
     is_valid_url env.po cfg.start_url = true ∧
     ((crawlLoop env cfg 3 (initialCrawlState cfg)).completed.length ≤
        cfg.max_pages ∧
      ((crawlLoop env cfg 3 (initialCrawlState cfg)).completed.map
        (fun s => normalize_url env.po s.url)).Nodup)) :=
  ⟨fun xs x h => h,
   by decide,
   C4_budget_and_dedup _ _ 3 (fun xs x h => h) (by decide)⟩
